import Mathlib

/-!
Verification of the `PotatoMaster101/linked_list` C library (`src/llist.c`,
`src/llist.h`).

The C code is a doubly linked list whose nodes live on the heap and hold an
owned byte copy of the caller's data.  We embed the code shallowly:

* a heap is an association list from addresses (plain `Nat`) to nodes,
  together with a fresh-address counter; `malloc` hands out the counter value;
* a C pointer that may be `NULL` is an `Option Nat`; a pointer dereference on
  a `NULL` or dangling pointer is undefined behaviour in C, so every operation
  that dereferences returns an `Option` result and yields `none` exactly on
  such a dereference;
* `malloc` failure is modelled by boolean oracles (`ok1` for the node
  allocation, `ok2` for the payload allocation) passed to `lnode_new`;
* payload bytes are `List Byte`; `memcpy(dst, d, n)` copies the first `n`
  bytes of the source buffer (`List.take n`); the C code requires the caller's
  buffer to hold at least `n` readable bytes;
* `size_t` values are `Nat`; all the C arithmetic here (`len - 1`, `len / 2`,
  `len - i - 1`) happens under guards that rule out wrap-around, and truncated
  `Nat` subtraction agrees with `size_t` subtraction on those guarded ranges.
-/

namespace LinkedList

/-- `LLIST_OK` from `llist.h`. -/
def LLIST_OK : Nat := 0

/-- `LLIST_NULL_ERR` from `llist.h`. -/
def LLIST_NULL_ERR : Nat := 1

/-- `LLIST_ALLOC_ERR` from `llist.h`. -/
def LLIST_ALLOC_ERR : Nat := 2

/-- A payload byte. -/
abbrev Byte := Nat

/- A heap address is a plain `Nat` (spelled out, rather than an abbreviation,
so that `omega` sees address arithmetic directly). -/

/-- `lnode_t` from `llist.h`: owned data plus `prev`/`next` links
(`NULL` = `none`). -/
structure lnode_t where
  data : List Byte
  prev : Option Nat
  next : Option Nat
deriving DecidableEq

/-- `llist_t` from `llist.h`: `head`/`tail` pointers and the `len` counter. -/
structure llist_t where
  head : Option Nat
  tail : Option Nat
  len : Nat
deriving DecidableEq

/-- Lookup of the first binding of `p` in an association list of nodes. -/
def findMem : List (Nat × lnode_t) → Nat → Option lnode_t
  | [], _ => none
  | (q, nd) :: rest, p => if q = p then some nd else findMem rest p

/-- Overwrite the first binding of `p` (no-op when `p` is unbound). -/
def setMem : List (Nat × lnode_t) → Nat → lnode_t → List (Nat × lnode_t)
  | [], _, _ => []
  | (q, nd) :: rest, p, v => if q = p then (q, v) :: rest else (q, nd) :: setMem rest p v

/-- Remove the first binding of `p` (models `free`). -/
def eraseMem : List (Nat × lnode_t) → Nat → List (Nat × lnode_t)
  | [], _ => []
  | (q, nd) :: rest, p => if q = p then rest else (q, nd) :: eraseMem rest p

/-- The heap: allocated nodes plus the next fresh address. -/
structure Heap where
  mem : List (Nat × lnode_t)
  top : Nat
deriving DecidableEq

/-- Dereference an address. -/
def Heap.find (h : Heap) (p : Nat) : Option lnode_t := findMem h.mem p

/-- Store a node at an (allocated) address. -/
def Heap.write (h : Heap) (p : Nat) (v : lnode_t) : Heap :=
  ⟨setMem h.mem p v, h.top⟩

/-- `free` an address. -/
def Heap.erase (h : Heap) (p : Nat) : Heap :=
  ⟨eraseMem h.mem p, h.top⟩

/-- `malloc` for a node: a fresh address. -/
def Heap.alloc (h : Heap) (v : lnode_t) : Nat × Heap :=
  (h.top, ⟨(h.top, v) :: h.mem, h.top + 1⟩)

/-- A checked field assignment `p->... = ...`: undefined behaviour (`none`)
when `p` is dangling. -/
def Heap.write? (h : Heap) (p : Nat) (f : lnode_t → lnode_t) : Option Heap :=
  match h.find p with
  | none => none
  | some nd => some (h.write p (f nd))

/-- `llist_init` from `llist.c`: reset the fields; `LLIST_NULL_ERR` on a
`NULL` handle. -/
def llist_init (l : Option llist_t) : Nat × Option llist_t :=
  match l with
  | none => (LLIST_NULL_ERR, none)
  | some _ => (LLIST_OK, some { head := none, tail := none, len := 0 })

/-- `lnode_new` from `llist.c`: allocate a node (oracle `ok1`), then its
payload copy (oracle `ok2`); on payload failure the node is freed again, so
the heap is unchanged on any failure. -/
def lnode_new (d : List Byte) (n : Nat) (ok1 ok2 : Bool) (h : Heap) :
    Option Nat × Heap :=
  if ok1 then
    if ok2 then
      let a := h.alloc { data := d.take n, prev := none, next := none }
      (some a.1, a.2)
    else (none, h)
  else (none, h)

/-- One step of `ret = ret->next`, iterated: the forward walk in
`lnode_get`. -/
def walkNext (h : Heap) : Option Nat → Nat → Option Nat
  | p, 0 => p
  | none, _ + 1 => none
  | some q, k + 1 =>
    match h.find q with
    | none => none
    | some nd => walkNext h nd.next k

/-- One step of `ret = ret->prev`, iterated: the backward walk in
`lnode_get`. -/
def walkPrev (h : Heap) : Option Nat → Nat → Option Nat
  | p, 0 => p
  | none, _ + 1 => none
  | some q, k + 1 =>
    match h.find q with
    | none => none
    | some nd => walkPrev h nd.prev k

/-- `lnode_get` from `llist.c`: `NULL` on an empty or absent list, otherwise
clamp the index and walk from the nearer end. -/
def lnode_get (h : Heap) (l : Option llist_t) (i : Nat) : Option Nat :=
  match l with
  | none => none
  | some s =>
    if s.len = 0 then none
    else
      let j := if i ≥ s.len then s.len - 1 else i
      if j ≥ s.len / 2 then walkPrev h s.tail (s.len - j - 1)
      else walkNext h s.head j

/-- `llist_get` from `llist.c`: the payload of the resolved node. -/
def llist_get (h : Heap) (l : Option llist_t) (i : Nat) : Option (List Byte) :=
  match lnode_get h l i with
  | none => none
  | some p => (h.find p).map lnode_t.data

/-- `llist_add` from `llist.c`.  Returns `none` exactly when the C code would
dereference a `NULL`/dangling pointer (impossible on well-formed states). -/
def llist_add (h : Heap) (l : Option llist_t) (d : Option (List Byte)) (n : Nat)
    (ok1 ok2 : Bool) : Option (Nat × Heap × Option llist_t) :=
  match l, d with
  | none, _ => some (LLIST_NULL_ERR, h, none)
  | some s, none => some (LLIST_NULL_ERR, h, some s)
  | some s, some dd =>
    if n = 0 then some (LLIST_NULL_ERR, h, some s)
    else
      match lnode_new dd n ok1 ok2 h with
      | (none, h1) => some (LLIST_ALLOC_ERR, h1, some s)
      | (some p, h1) =>
        if s.len = 0 then
          some (LLIST_OK, h1, some { head := some p, tail := some p, len := s.len + 1 })
        else
          match s.tail with
          | none => none
          | some t =>
            match h1.write? t (fun nd => { nd with next := some p }) with
            | none => none
            | some h2 =>
              match h2.write? p (fun nd => { nd with prev := s.tail }) with
              | none => none
              | some h3 =>
                match h3.find t with
                | none => none
                | some tnd =>
                  some (LLIST_OK, h3, some { s with tail := tnd.next, len := s.len + 1 })

/-- `llist_ins` from `llist.c`: degrade to `llist_add` on an empty list or an
out-of-range index, else splice before the head (`i = 0`) or mid-chain. -/
def llist_ins (h : Heap) (l : Option llist_t) (d : Option (List Byte)) (n i : Nat)
    (ok1 ok2 : Bool) : Option (Nat × Heap × Option llist_t) :=
  match l, d with
  | none, _ => some (LLIST_NULL_ERR, h, none)
  | some s, none => some (LLIST_NULL_ERR, h, some s)
  | some s, some dd =>
    if n = 0 then some (LLIST_NULL_ERR, h, some s)
    else if s.len = 0 ∨ i ≥ s.len then llist_add h (some s) (some dd) n ok1 ok2
    else
      match lnode_new dd n ok1 ok2 h with
      | (none, h1) => some (LLIST_ALLOC_ERR, h1, some s)
      | (some p, h1) =>
        if i = 0 then
          match s.head with
          | none => none
          | some hp =>
            match h1.write? hp (fun nd => { nd with prev := some p }) with
            | none => none
            | some h2 =>
              match h2.write? p (fun nd => { nd with next := s.head }) with
              | none => none
              | some h3 =>
                match h3.find hp with
                | none => none
                | some hnd =>
                  some (LLIST_OK, h3, some { s with head := hnd.prev, len := s.len + 1 })
        else
          match lnode_get h1 (some s) (i - 1) with
          | none => none
          | some bef =>
            match h1.find bef with
            | none => none
            | some befnd =>
              match h1.write? bef (fun nd => { nd with next := some p }) with
              | none => none
              | some h2 =>
                match h2.write? p (fun nd => { nd with prev := some bef }) with
                | none => none
                | some h3 =>
                  match befnd.next with
                  | none => none
                  | some a =>
                    match h3.write? a (fun nd => { nd with prev := some p }) with
                    | none => none
                    | some h4 =>
                      match h4.write? p (fun nd => { nd with next := befnd.next }) with
                      | none => none
                      | some h5 =>
                        some (LLIST_OK, h5, some { s with len := s.len + 1 })

/-- `lnode_free` from `llist.c`: free the node, handing its payload to the
caller; the node's own fields are nulled before the `free`, so the net heap
effect is the removal of the binding. -/
def lnode_free (h : Heap) (n : Option Nat) : Option (Option (List Byte) × Heap) :=
  match n with
  | none => some (none, h)
  | some p =>
    match h.find p with
    | none => none
    | some nd => some (some nd.data, h.erase p)

/-- `llist_del` from `llist.c`: resolve the (clamped) node, unlink it by the
four cases of the C code, decrement `len`, and free the node returning its
payload. -/
def llist_del (h : Heap) (l : Option llist_t) (i : Nat) :
    Option (Option (List Byte) × Heap × Option llist_t) :=
  match l with
  | none => some (none, h, none)
  | some s =>
    match lnode_get h (some s) i with
    | none => some (none, h, some s)
    | some node =>
      let step : Option (Heap × llist_t) :=
        if s.len = 1 then
          some (h, { s with head := none, tail := none, len := s.len - 1 })
        else if i = 0 then
          match s.head with
          | none => none
          | some hp =>
            match h.find hp with
            | none => none
            | some hnd =>
              match hnd.next with
              | none => none
              | some nh =>
                match h.write? nh (fun nd => { nd with prev := none }) with
                | none => none
                | some h2 => some (h2, { s with head := some nh, len := s.len - 1 })
        else if i ≥ s.len - 1 then
          match s.tail with
          | none => none
          | some tp =>
            match h.find tp with
            | none => none
            | some tnd =>
              match tnd.prev with
              | none => none
              | some nt =>
                match h.write? nt (fun nd => { nd with next := none }) with
                | none => none
                | some h2 => some (h2, { s with tail := some nt, len := s.len - 1 })
        else
          match h.find node with
          | none => none
          | some nnd =>
            match nnd.prev with
            | none => none
            | some pv =>
              match h.write? pv (fun nd => { nd with next := nnd.next }) with
              | none => none
              | some h2 =>
                match h2.find node with
                | none => none
                | some nnd2 =>
                  match nnd2.next with
                  | none => none
                  | some nx =>
                    match h2.write? nx (fun nd => { nd with prev := nnd2.prev }) with
                    | none => none
                    | some h3 => some (h3, { s with len := s.len - 1 })
      match step with
      | none => none
      | some (h2, s2) =>
        match lnode_free h2 (some node) with
        | none => none
        | some (ret, h3) => some (ret, h3, some s2)

/-- The body of the `while` loop of `llist_clear`: advance along `next`,
freeing each node whole.  The C loop has no bound; each iteration frees one
live node, so `fuel` iterations suffice whenever `fuel` exceeds the chain
length, and running out of fuel with a live cursor (`none`) can only happen
on a malformed heap, where the C code would read freed memory. -/
def clearLoop (h : Heap) : Option Nat → Nat → Option Heap
  | none, _ => some h
  | some _, 0 => none
  | some p, fuel + 1 =>
    match h.find p with
    | none => none
    | some nd => clearLoop (h.erase p) nd.next fuel

/-- `llist_clear` from `llist.c`: free every node, then reset the fields;
no-op on an absent or empty list (`llist_empty`). -/
def llist_clear (h : Heap) (l : Option llist_t) : Option (Heap × Option llist_t) :=
  match l with
  | none => some (h, none)
  | some s =>
    if s.len = 0 then some (h, some s)
    else
      match clearLoop h s.head (s.len + 1) with
      | none => none
      | some h2 => some (h2, some { s with head := none, tail := none, len := 0 })

/-! ## Representation invariant

`ptrs` lists the addresses of the chain's nodes from head to tail.  `chainOk`
states that every listed address is live and that its `next`/`prev` fields
point to its successor/predecessor in `ptrs` (with `none` at the two ends);
`ListRep` adds the bookkeeping facts tying the `llist_t` header to the chain.
-/

/-- The doubly linked chain `ptrs` is intact in heap `h`. -/
def chainOk (h : Heap) (ptrs : List Nat) : Prop :=
  ∀ j, (hj : j < ptrs.length) →
    (h.find ptrs[j]).map lnode_t.next = some ptrs[j + 1]? ∧
    (h.find ptrs[j]).map lnode_t.prev = some (if j = 0 then none else ptrs[j - 1]?)

instance chainOk_decidable (h : Heap) (ptrs : List Nat) : Decidable (chainOk h ptrs) := by
  unfold chainOk
  exact Nat.decidableBallLT _ _

/-- The list header `s` describes exactly the chain `ptrs` in heap `h`. -/
structure ListRep (h : Heap) (s : llist_t) (ptrs : List Nat) : Prop where
  chain : chainOk h ptrs
  headEq : s.head = ptrs[0]?
  tailEq : s.tail = ptrs[ptrs.length - 1]?
  lenEq : s.len = ptrs.length
  nodup : ptrs.Nodup
  fresh : ∀ p ∈ ptrs, p < h.top

instance listRep_decidable (h : Heap) (s : llist_t) (ptrs : List Nat) :
    Decidable (ListRep h s ptrs) :=
  decidable_of_iff
    (chainOk h ptrs ∧ s.head = ptrs[0]? ∧ s.tail = ptrs[ptrs.length - 1]? ∧
      s.len = ptrs.length ∧ ptrs.Nodup ∧ ∀ p ∈ ptrs, p < h.top)
    ⟨fun x => ⟨x.1, x.2.1, x.2.2.1, x.2.2.2.1, x.2.2.2.2.1, x.2.2.2.2.2⟩,
      fun R => ⟨R.chain, R.headEq, R.tailEq, R.lenEq, R.nodup, R.fresh⟩⟩

/-- The payloads of the chain, head to tail. -/
def absList (h : Heap) (ptrs : List Nat) : List (List Byte) :=
  ptrs.map (fun p =>
    match h.find p with
    | some nd => nd.data
    | none => [])

/-- The clamped index computed by `lnode_get`. -/
def clampIdx (len i : Nat) : Nat := if i ≥ len then len - 1 else i

/-- The forward-link half of `chainOk`: all the clear loop needs. -/
def nextChainOk (h : Heap) (ptrs : List Nat) : Prop :=
  ∀ j, (hj : j < ptrs.length) →
    (h.find ptrs[j]).map lnode_t.next = some ptrs[j + 1]?

/-- Iterate `llist_add` over a list of `(data, length)` inputs (allocation
succeeding each time). -/
def runAdds (h : Heap) (l : Option llist_t) : List (List Byte × Nat) →
    Option (Heap × Option llist_t)
  | [] => some (h, l)
  | x :: rest =>
    match llist_add h l (some x.1) x.2 true true with
    | none => none
    | some (_, h2, l2) => runAdds h2 l2 rest

/-- Resolver that always walks forward from the head (with the same clamping
as `lnode_get`).  This follows the spec's words — a naive forward walk — and
is the comparison point for the refinement claim about the bidirectional
walk of `lnode_get`. -/
def lnode_get_fwd (h : Heap) (l : Option llist_t) (i : Nat) : Option Nat :=
  match l with
  | none => none
  | some s =>
    if s.len = 0 then none
    else walkNext h s.head (if i ≥ s.len then s.len - 1 else i)

/-- A one-node heap used by witnesses. -/
def wheap1 : Heap := ⟨[(0, ⟨[7], none, none⟩)], 1⟩

/-- The header describing the one-node chain `[0]` in `wheap1`. -/
def wlist1 : llist_t := ⟨some 0, some 0, 1⟩

/-- A two-node heap used by witnesses. -/
def wheap2 : Heap := ⟨[(0, ⟨[1], none, some 1⟩), (1, ⟨[2], some 0, none⟩)], 2⟩

/-- The header describing the two-node chain `[0, 1]` in `wheap2`. -/
def wlist2 : llist_t := ⟨some 0, some 1, 2⟩


/-! ## Heap lemmas -/

theorem findMem_setMem_self (m : List (Nat × lnode_t)) (p : Nat) (v nd : lnode_t)
    (hf : findMem m p = some nd) : findMem (setMem m p v) p = some v := by
  induction m with
  | nil => simp [findMem] at hf
  | cons x rest ih =>
    obtain ⟨q, w⟩ := x
    by_cases hq : q = p
    · subst hq
      simp [findMem, setMem]
    · simp [findMem, setMem, hq] at hf ⊢
      exact ih hf

theorem findMem_setMem_ne (m : List (Nat × lnode_t)) (p q : Nat) (v : lnode_t)
    (hq : q ≠ p) : findMem (setMem m p v) q = findMem m q := by
  induction m with
  | nil => simp [setMem]
  | cons x rest ih =>
    obtain ⟨r, w⟩ := x
    by_cases hr : r = p
    · subst hr
      simp [findMem, setMem, Ne.symm hq]
    · simp only [setMem, if_neg hr, findMem]
      by_cases hrq : r = q
      · simp [hrq]
      · simp [hrq, ih]

theorem findMem_eraseMem_ne (m : List (Nat × lnode_t)) (p q : Nat)
    (hq : q ≠ p) : findMem (eraseMem m p) q = findMem m q := by
  induction m with
  | nil => simp [eraseMem]
  | cons x rest ih =>
    obtain ⟨r, w⟩ := x
    by_cases hr : r = p
    · subst hr
      simp [findMem, eraseMem, Ne.symm hq]
    · simp only [eraseMem, if_neg hr, findMem]
      by_cases hrq : r = q
      · simp [hrq]
      · simp [hrq, ih]

theorem find_write_self (h : Heap) (p : Nat) (v nd : lnode_t)
    (hf : h.find p = some nd) : (h.write p v).find p = some v :=
  findMem_setMem_self h.mem p v nd hf

theorem find_write_ne (h : Heap) (p q : Nat) (v : lnode_t) (hq : q ≠ p) :
    (h.write p v).find q = h.find q :=
  findMem_setMem_ne h.mem p q v hq

theorem find_erase_ne (h : Heap) (p q : Nat) (hq : q ≠ p) :
    (h.erase p).find q = h.find q :=
  findMem_eraseMem_ne h.mem p q hq

theorem find_alloc_ne (h : Heap) (v : lnode_t) (q : Nat) (hq : q ≠ h.top) :
    (h.alloc v).2.find q = h.find q := by
  simp [Heap.alloc, Heap.find, findMem, Ne.symm hq]

theorem find_alloc_self (h : Heap) (v : lnode_t) :
    (h.alloc v).2.find h.top = some v := by
  simp [Heap.alloc, Heap.find, findMem]

theorem write?_eq_some (h : Heap) (p : Nat) (f : lnode_t → lnode_t) (nd : lnode_t)
    (hf : h.find p = some nd) : h.write? p f = some (h.write p (f nd)) := by
  simp [Heap.write?, hf]

theorem top_write (h : Heap) (p : Nat) (v : lnode_t) : (h.write p v).top = h.top := rfl

theorem top_erase (h : Heap) (p : Nat) : (h.erase p).top = h.top := rfl

/-! ## Chain lemmas -/

theorem chainOk_nil (h : Heap) : chainOk h [] := by
  intro j hj
  simp at hj

/-- Unpack `chainOk` at one index. -/
theorem chainOk_find (h : Heap) (ptrs : List Nat) (hc : chainOk h ptrs) (j : Nat)
    (hj : j < ptrs.length) :
    ∃ nd, h.find ptrs[j] = some nd ∧ nd.next = ptrs[j + 1]? ∧
      nd.prev = (if j = 0 then none else ptrs[j - 1]?) := by
  obtain ⟨hn, hp⟩ := hc j hj
  obtain ⟨nd, hnd, hnext⟩ := Option.map_eq_some'.mp hn
  refine ⟨nd, hnd, hnext, ?_⟩
  rw [hnd] at hp
  exact Option.some_injective _ hp

/-- A write at an address outside the chain leaves the chain intact. -/
theorem chainOk_write_not_mem (h : Heap) (ptrs : List Nat) (p : Nat) (v : lnode_t)
    (hc : chainOk h ptrs) (hp : p ∉ ptrs) : chainOk (h.write p v) ptrs := by
  intro j hj
  rw [find_write_ne h p ptrs[j] v (fun he => hp (he ▸ ptrs.getElem_mem hj))]
  exact hc j hj

/-- An allocation (fresh address) leaves the chain intact. -/
theorem chainOk_alloc (h : Heap) (ptrs : List Nat) (v : lnode_t)
    (hc : chainOk h ptrs) (hfr : ∀ p ∈ ptrs, p < h.top) :
    chainOk (h.alloc v).2 ptrs := by
  intro j hj
  rw [find_alloc_ne h v ptrs[j] (Nat.ne_of_lt (hfr ptrs[j] (ptrs.getElem_mem hj)))]
  exact hc j hj

/-- An erase at an address outside the chain leaves the chain intact. -/
theorem chainOk_erase_not_mem (h : Heap) (ptrs : List Nat) (p : Nat)
    (hc : chainOk h ptrs) (hp : p ∉ ptrs) : chainOk (h.erase p) ptrs := by
  intro j hj
  rw [find_erase_ne h p ptrs[j] (fun he => hp (he ▸ ptrs.getElem_mem hj))]
  exact hc j hj

/-- Distinct indices of a `Nodup` list hold distinct addresses. -/
theorem nodup_getElem_ne (ptrs : List Nat) (hn : ptrs.Nodup) (j k : Nat)
    (hj : j < ptrs.length) (hk : k < ptrs.length) (hjk : j ≠ k) :
    ptrs[j] ≠ ptrs[k] := by
  intro he
  have hfin : (⟨j, hj⟩ : Fin ptrs.length) = ⟨k, hk⟩ :=
    List.nodup_iff_injective_get.mp hn (by simpa [List.get_eq_getElem] using he)
  exact hjk (by simpa using congrArg Fin.val hfin)

/-! ## Walk lemmas -/

theorem walkNext_spec (h : Heap) (ptrs : List Nat) (hc : chainOk h ptrs) :
    ∀ k j, j + k < ptrs.length → walkNext h ptrs[j]? k = ptrs[j + k]? := by
  intro k
  induction k with
  | zero => intro j _; simp [walkNext]
  | succ k ih =>
    intro j hjk
    have hj : j < ptrs.length := by omega
    obtain ⟨nd, hnd, hnext, _⟩ := chainOk_find h ptrs hc j hj
    rw [List.getElem?_eq_getElem hj]
    show walkNext h (some ptrs[j]) (k + 1) = ptrs[j + (k + 1)]?
    have hstep : walkNext h (some ptrs[j]) (k + 1) = walkNext h nd.next k := by
      simp [walkNext, hnd]
    rw [hstep, hnext, ih (j + 1) (by omega)]
    congr 1
    omega

theorem walkPrev_spec (h : Heap) (ptrs : List Nat) (hc : chainOk h ptrs) :
    ∀ k j, k ≤ j → j < ptrs.length → walkPrev h ptrs[j]? k = ptrs[j - k]? := by
  intro k
  induction k with
  | zero => intro j _ _; simp [walkPrev]
  | succ k ih =>
    intro j hkj hj
    obtain ⟨nd, hnd, _, hprev⟩ := chainOk_find h ptrs hc j hj
    rw [List.getElem?_eq_getElem hj]
    show walkPrev h (some ptrs[j]) (k + 1) = ptrs[j - (k + 1)]?
    have hstep : walkPrev h (some ptrs[j]) (k + 1) = walkPrev h nd.prev k := by
      simp [walkPrev, hnd]
    have hj0 : j ≠ 0 := by omega
    rw [hstep, hprev, if_neg hj0, ih (j - 1) (by omega) (by omega)]
    congr 1
    omega

theorem clampIdx_lt (len i : Nat) (hlen : len ≠ 0) : clampIdx len i < len := by
  unfold clampIdx
  split <;> omega

/-- `lnode_get` resolves the clamped index to the corresponding chain node,
whichever end it walks from. -/
theorem lnode_get_spec (h : Heap) (s : llist_t) (ptrs : List Nat) (i : Nat)
    (R : ListRep h s ptrs) (hne : ptrs ≠ []) :
    lnode_get h (some s) i = ptrs[clampIdx ptrs.length i]? := by
  have hlen : ptrs.length ≠ 0 := fun hz => hne (List.eq_nil_of_length_eq_zero hz)
  have hcl : clampIdx ptrs.length i < ptrs.length := clampIdx_lt _ _ hlen
  show (if s.len = 0 then none
    else
      let j := if i ≥ s.len then s.len - 1 else i
      if j ≥ s.len / 2 then walkPrev h s.tail (s.len - j - 1)
      else walkNext h s.head j) = ptrs[clampIdx ptrs.length i]?
  rw [R.lenEq, if_neg hlen]
  show (if (clampIdx ptrs.length i) ≥ ptrs.length / 2 then
      walkPrev h s.tail (ptrs.length - (clampIdx ptrs.length i) - 1)
    else walkNext h s.head (clampIdx ptrs.length i)) = ptrs[clampIdx ptrs.length i]?
  set j := clampIdx ptrs.length i with hjdef
  by_cases hhalf : j ≥ ptrs.length / 2
  · rw [if_pos hhalf, R.tailEq]
    rw [walkPrev_spec h ptrs R.chain (ptrs.length - j - 1) (ptrs.length - 1)
      (by omega) (by omega)]
    congr 1
    omega
  · rw [if_neg hhalf, R.headEq]
    rw [walkNext_spec h ptrs R.chain j 0 (by omega)]
    congr 1
    omega

/-- `llist_get` returns the payload at the clamped index. -/
theorem llist_get_spec (h : Heap) (s : llist_t) (ptrs : List Nat) (i : Nat)
    (R : ListRep h s ptrs) (hne : ptrs ≠ []) :
    llist_get h (some s) i = (absList h ptrs)[clampIdx ptrs.length i]? := by
  have hlen : ptrs.length ≠ 0 := fun hz => hne (List.eq_nil_of_length_eq_zero hz)
  have hcl : clampIdx ptrs.length i < ptrs.length := clampIdx_lt _ _ hlen
  unfold llist_get
  rw [lnode_get_spec h s ptrs i R hne, List.getElem?_eq_getElem hcl]
  obtain ⟨nd, hnd, _, _⟩ := chainOk_find h ptrs R.chain _ hcl
  simp only [hnd, Option.map_some']
  unfold absList
  rw [List.getElem?_map, List.getElem?_eq_getElem hcl]
  simp [hnd]

/-! ## Index bookkeeping helpers -/

theorem getElem?_append_l {α : Type} (l₁ l₂ : List α) (i : Nat) (h : i < l₁.length) :
    (l₁ ++ l₂)[i]? = l₁[i]? := by
  simp [List.getElem?_append, h]

theorem getElem?_append_r {α : Type} (l₁ l₂ : List α) (i : Nat) (h : l₁.length ≤ i) :
    (l₁ ++ l₂)[i]? = l₂[i - l₁.length]? :=
  List.getElem?_append_right h

/-! ## `absList` lemmas -/

theorem absList_eq_of_data (h h2 : Heap) (ptrs : List Nat)
    (hd : ∀ p ∈ ptrs, (h2.find p).map lnode_t.data = (h.find p).map lnode_t.data) :
    absList h2 ptrs = absList h ptrs := by
  unfold absList
  apply List.map_congr_left
  intro p hp
  have h1 := hd p hp
  cases hfp : h2.find p with
  | none =>
    cases hfq : h.find p with
    | none => rfl
    | some nd => rw [hfp, hfq] at h1; simp at h1
  | some nd =>
    cases hfq : h.find p with
    | none => rw [hfp, hfq] at h1; simp at h1
    | some nd2 =>
      rw [hfp, hfq] at h1
      simp only [Option.map_some'] at h1
      simp [Option.some_injective _ h1]

theorem absList_append (h : Heap) (l₁ l₂ : List Nat) :
    absList h (l₁ ++ l₂) = absList h l₁ ++ absList h l₂ := by
  unfold absList
  exact List.map_append _ _ _

theorem absList_length (h : Heap) (ptrs : List Nat) :
    (absList h ptrs).length = ptrs.length := by
  unfold absList
  exact List.length_map _ _

/-- Allocation of a fresh node preserves the representation. -/
theorem listRep_alloc (h : Heap) (s : llist_t) (ptrs : List Nat) (v : lnode_t)
    (R : ListRep h s ptrs) : ListRep (h.alloc v).2 s ptrs where
  chain := chainOk_alloc h ptrs v R.chain R.fresh
  headEq := R.headEq
  tailEq := R.tailEq
  lenEq := R.lenEq
  nodup := R.nodup
  fresh := fun p hp => Nat.lt_succ_of_lt (R.fresh p hp)

/-! ## `llist_add` -/

/-- Computation of `llist_add` on an empty list with both allocations
succeeding. -/
theorem llist_add_eq_empty (h : Heap) (s : llist_t) (d : List Byte) (n : Nat)
    (hn : n ≠ 0) (hlen : s.len = 0) :
    llist_add h (some s) (some d) n true true =
      some (LLIST_OK, ⟨(h.top, ⟨d.take n, none, none⟩) :: h.mem, h.top + 1⟩,
        some ⟨some h.top, some h.top, s.len + 1⟩) := by
  simp [llist_add, lnode_new, hn, hlen, Heap.alloc]

/-- Computation of `llist_add` on a non-empty list with both allocations
succeeding, given the tail node. -/
theorem llist_add_eq_cons (h : Heap) (s : llist_t) (d : List Byte) (n : Nat)
    (t : Nat) (tnd : lnode_t) (hn : n ≠ 0) (hlen : s.len ≠ 0)
    (ht : s.tail = some t) (htn : t ≠ h.top) (hfind : h.find t = some tnd) :
    llist_add h (some s) (some d) n true true =
      some (LLIST_OK,
        ((⟨(h.top, ⟨d.take n, none, none⟩) :: h.mem, h.top + 1⟩ : Heap).write t
            { tnd with next := some h.top }).write h.top ⟨d.take n, some t, none⟩,
        some { s with tail := some h.top, len := s.len + 1 }) := by
  have h1t : (⟨(h.top, ⟨d.take n, none, none⟩) :: h.mem, h.top + 1⟩ : Heap).find t =
      some tnd := by
    show findMem _ t = _
    simp only [findMem, if_neg (Ne.symm htn)]
    exact hfind
  have h2p : ((⟨(h.top, ⟨d.take n, none, none⟩) :: h.mem, h.top + 1⟩ : Heap).write t
      { tnd with next := some h.top }).find h.top = some ⟨d.take n, none, none⟩ := by
    rw [find_write_ne _ _ _ _ (Ne.symm htn)]
    show findMem _ h.top = _
    simp [findMem]
  have h3t : (((⟨(h.top, ⟨d.take n, none, none⟩) :: h.mem, h.top + 1⟩ : Heap).write t
      { tnd with next := some h.top }).write h.top ⟨d.take n, some t, none⟩).find t =
      some { tnd with next := some h.top } := by
    rw [find_write_ne _ _ _ _ htn]
    exact find_write_self _ _ _ _ h1t
  simp [llist_add, lnode_new, Heap.alloc, hn, hlen, ht, Heap.write?, h1t, h2p, h3t]

/-- Successful `llist_add` (both allocations succeed) appends a node holding
the copied bytes to the chain and makes it the new tail. -/
theorem llist_add_ok (h : Heap) (s : llist_t) (ptrs : List Nat) (d : List Byte) (n : Nat)
    (R : ListRep h s ptrs) (hn : n ≠ 0) :
    ∃ h2 s2, llist_add h (some s) (some d) n true true = some (LLIST_OK, h2, some s2) ∧
      ListRep h2 s2 (ptrs ++ [h.top]) ∧
      absList h2 (ptrs ++ [h.top]) = absList h ptrs ++ [d.take n] ∧
      s2.head = (ptrs ++ [h.top])[0]? ∧ s2.tail = some h.top ∧
      s2.len = s.len + 1 ∧ h2.top = h.top + 1 := by
  by_cases hlen0 : s.len = 0
  · -- list is empty: the node becomes both head and tail
    have hplen : ptrs.length = 0 := by rw [← R.lenEq]; exact hlen0
    have hptrs : ptrs = [] := List.eq_nil_of_length_eq_zero hplen
    subst hptrs
    refine ⟨_, _, llist_add_eq_empty h s d n hn hlen0, ?_, ?_, ?_, ?_, ?_, ?_⟩
    · constructor
      · intro j hj
        simp only [List.nil_append, List.length_cons, List.length_nil] at hj
        have hj0 : j = 0 := by omega
        subst hj0
        constructor
        · show ((Heap.find _ _).map _) = _
          simp [Heap.find, findMem]
        · show ((Heap.find _ _).map _) = _
          simp [Heap.find, findMem]
      · simp
      · simp
      · simp [hlen0]
      · simp
      · intro p hp
        have hp2 : p = h.top := by simpa using hp
        show p < h.top + 1
        omega
    · simp [absList, Heap.find, findMem]
    · simp
    · rfl
    · rfl
    · rfl
  · -- list is non-empty: link the node after the old tail
    have hlen : ptrs.length ≠ 0 := by rw [← R.lenEq]; exact hlen0
    have hlt : ptrs.length - 1 < ptrs.length := by omega
    have htail : s.tail = some ptrs[ptrs.length - 1] := by
      rw [R.tailEq, List.getElem?_eq_getElem hlt]
    have htmem : ptrs[ptrs.length - 1] ∈ ptrs := List.getElem_mem hlt
    have htlt : ptrs[ptrs.length - 1] < h.top := R.fresh _ htmem
    have htn : ptrs[ptrs.length - 1] ≠ h.top := Nat.ne_of_lt htlt
    obtain ⟨tnd, htnd, htnext, htprev⟩ := chainOk_find h ptrs R.chain _ hlt
    have htnext0 : tnd.next = none := by
      rw [htnext, List.getElem?_eq_none (by omega)]
    have hH1t : (⟨(h.top, ⟨d.take n, none, none⟩) :: h.mem, h.top + 1⟩ : Heap).find
        ptrs[ptrs.length - 1] = some tnd := by
      show findMem _ _ = _
      simp only [findMem, if_neg (Ne.symm htn)]
      exact htnd
    have hf_p : (((⟨(h.top, ⟨d.take n, none, none⟩) :: h.mem, h.top + 1⟩ : Heap).write
        ptrs[ptrs.length - 1] { tnd with next := some h.top }).write h.top
        ⟨d.take n, some ptrs[ptrs.length - 1], none⟩).find h.top =
        some ⟨d.take n, some ptrs[ptrs.length - 1], none⟩ := by
      refine find_write_self _ _ _ ⟨d.take n, none, none⟩ ?_
      rw [find_write_ne _ _ _ _ (Ne.symm htn)]
      show findMem _ _ = _
      simp [findMem]
    have hf_t : (((⟨(h.top, ⟨d.take n, none, none⟩) :: h.mem, h.top + 1⟩ : Heap).write
        ptrs[ptrs.length - 1] { tnd with next := some h.top }).write h.top
        ⟨d.take n, some ptrs[ptrs.length - 1], none⟩).find ptrs[ptrs.length - 1] =
        some { tnd with next := some h.top } := by
      rw [find_write_ne _ _ _ _ htn]
      exact find_write_self _ _ _ _ hH1t
    have hf_other : ∀ q, q ≠ ptrs[ptrs.length - 1] → q ≠ h.top →
        (((⟨(h.top, ⟨d.take n, none, none⟩) :: h.mem, h.top + 1⟩ : Heap).write
          ptrs[ptrs.length - 1] { tnd with next := some h.top }).write h.top
          ⟨d.take n, some ptrs[ptrs.length - 1], none⟩).find q = h.find q := by
      intro q hqt hqp
      rw [find_write_ne _ _ _ _ hqp, find_write_ne _ _ _ _ hqt]
      show findMem _ _ = _
      simp only [findMem, if_neg (Ne.symm hqp)]
      rfl
    refine ⟨_, _, llist_add_eq_cons h s d n ptrs[ptrs.length - 1] tnd hn hlen0 htail htn htnd,
      ?_, ?_, ?_, ?_, ?_, ?_⟩
    · constructor
      · intro j hj
        have hj' : j < ptrs.length + 1 := by simpa using hj
        by_cases hjlen : j = ptrs.length
        · subst hjlen
          have hget : (ptrs ++ [h.top])[ptrs.length] = h.top := by
            have h1 := List.getElem?_concat_length ptrs h.top
            rw [List.getElem?_eq_getElem hj] at h1
            exact Option.some.inj h1
          rw [hget, hf_p]
          constructor
          · simp only [Option.map_some']
            rw [List.getElem?_eq_none (by simp)]
          · simp only [Option.map_some']
            rw [if_neg hlen, getElem?_append_l _ _ _ (by omega),
              List.getElem?_eq_getElem hlt]
        · have hjlt : j < ptrs.length := by omega
          have hget : (ptrs ++ [h.top])[j] = ptrs[j] := List.getElem_append_left hjlt
          rw [hget]
          by_cases hjlast : j = ptrs.length - 1
          · subst hjlast
            rw [hf_t]
            constructor
            · simp only [Option.map_some']
              rw [show ptrs.length - 1 + 1 = ptrs.length by omega,
                List.getElem?_concat_length]
            · simp only [Option.map_some']
              rw [htprev]
              by_cases h0 : ptrs.length - 1 = 0
              · simp [h0]
              · rw [if_neg h0, if_neg h0, getElem?_append_l _ _ _ (by omega)]
          · have hqt : ptrs[j] ≠ ptrs[ptrs.length - 1] :=
              nodup_getElem_ne ptrs R.nodup j (ptrs.length - 1) hjlt hlt hjlast
            have hqp : ptrs[j] ≠ h.top := Nat.ne_of_lt (R.fresh _ (List.getElem_mem hjlt))
            rw [hf_other _ hqt hqp]
            obtain ⟨nd, hnd, hnext, hprev⟩ := chainOk_find h ptrs R.chain j hjlt
            rw [hnd]
            constructor
            · simp only [Option.map_some']
              rw [hnext, getElem?_append_l _ _ _ (by omega)]
            · simp only [Option.map_some']
              rw [hprev]
              by_cases hj0 : j = 0
              · simp [hj0]
              · rw [if_neg hj0, if_neg hj0, getElem?_append_l _ _ _ (by omega)]
      · show s.head = _
        rw [R.headEq, getElem?_append_l _ _ _ (by omega)]
      · show some h.top = _
        rw [show (ptrs ++ [h.top]).length - 1 = ptrs.length by simp,
          List.getElem?_concat_length]
      · show s.len + 1 = _
        simp [R.lenEq]
      · rw [List.nodup_append]
        refine ⟨R.nodup, by simp, ?_⟩
        intro a ha hb
        rw [List.mem_singleton] at hb
        subst hb
        have := R.fresh _ ha
        omega
      · intro q hq
        show q < h.top + 1
        rcases List.mem_append.mp hq with hq1 | hq2
        · have := R.fresh q hq1
          omega
        · simp only [List.mem_singleton] at hq2
          omega
    · rw [absList_append]
      congr 1
      · apply absList_eq_of_data
        intro q hq
        by_cases hqt : q = ptrs[ptrs.length - 1]
        · subst hqt
          rw [hf_t, htnd]
          rfl
        · rw [hf_other q hqt (Nat.ne_of_lt (R.fresh q hq))]
      · simp [absList, hf_p]
    · show s.head = _
      rw [R.headEq, getElem?_append_l _ _ _ (by omega)]
    · rfl
    · rfl
    · rfl

/-- `llist_add` reports `LLIST_NULL_ERR` — leaving heap and list untouched —
exactly when the handle or data pointer is `NULL` or the length is `0`. -/
theorem llist_add_null_iff (h : Heap) (l : Option llist_t) (d : Option (List Byte))
    (n : Nat) (ok1 ok2 : Bool) :
    llist_add h l d n ok1 ok2 = some (LLIST_NULL_ERR, h, l) ↔
      (l = none ∨ d = none ∨ n = 0) := by
  constructor
  · intro heq
    by_contra hcon
    push_neg at hcon
    obtain ⟨hl, hd, hn⟩ := hcon
    obtain ⟨s, rfl⟩ := Option.ne_none_iff_exists'.mp hl
    obtain ⟨dd, rfl⟩ := Option.ne_none_iff_exists'.mp hd
    simp only [llist_add] at heq
    rw [if_neg hn] at heq
    repeat' split at heq
    all_goals simp_all [LLIST_OK, LLIST_NULL_ERR, LLIST_ALLOC_ERR]
  · intro hc
    rcases hc with rfl | rfl | rfl
    · rfl
    · cases l with
      | none => rfl
      | some s => rfl
    · cases l with
      | none => rfl
      | some s =>
        cases d with
        | none => rfl
        | some dd => simp [llist_add]

/-- `llist_add` reports `LLIST_ALLOC_ERR` — leaving heap and list untouched —
when either allocation fails (valid inputs). -/
theorem llist_add_alloc_err (h : Heap) (s : llist_t) (dd : List Byte) (n : Nat)
    (ok1 ok2 : Bool) (hn : n ≠ 0) (hok : ¬(ok1 = true ∧ ok2 = true)) :
    llist_add h (some s) (some dd) n ok1 ok2 = some (LLIST_ALLOC_ERR, h, some s) := by
  cases ok1 <;> cases ok2 <;> simp_all [llist_add, lnode_new]

/-- `llist_ins` reports `LLIST_NULL_ERR` — leaving heap and list untouched —
exactly when the handle or data pointer is `NULL` or the length is `0`. -/
theorem llist_ins_null_iff (h : Heap) (l : Option llist_t) (d : Option (List Byte))
    (n i : Nat) (ok1 ok2 : Bool) :
    llist_ins h l d n i ok1 ok2 = some (LLIST_NULL_ERR, h, l) ↔
      (l = none ∨ d = none ∨ n = 0) := by
  constructor
  · intro heq
    by_contra hcon
    push_neg at hcon
    obtain ⟨hl, hd, hn⟩ := hcon
    obtain ⟨s, rfl⟩ := Option.ne_none_iff_exists'.mp hl
    obtain ⟨dd, rfl⟩ := Option.ne_none_iff_exists'.mp hd
    simp only [llist_ins] at heq
    rw [if_neg hn] at heq
    by_cases hdeg : s.len = 0 ∨ i ≥ s.len
    · rw [if_pos hdeg] at heq
      rcases (llist_add_null_iff h (some s) (some dd) n ok1 ok2).mp heq with
        hbad | hbad | hbad
      · exact Option.noConfusion hbad
      · exact Option.noConfusion hbad
      · exact hn hbad
    · rw [if_neg hdeg] at heq
      repeat' split at heq
      all_goals simp_all [LLIST_OK, LLIST_NULL_ERR, LLIST_ALLOC_ERR]
  · intro hc
    rcases hc with rfl | rfl | rfl
    · rfl
    · cases l with
      | none => rfl
      | some s => rfl
    · cases l with
      | none => rfl
      | some s =>
        cases d with
        | none => rfl
        | some dd => simp [llist_ins]

/-- `llist_ins` reports `LLIST_ALLOC_ERR` — leaving heap and list untouched —
when either allocation fails (valid inputs), whichever branch runs. -/
theorem llist_ins_alloc_err (h : Heap) (s : llist_t) (dd : List Byte) (n i : Nat)
    (ok1 ok2 : Bool) (hn : n ≠ 0) (hok : ¬(ok1 = true ∧ ok2 = true)) :
    llist_ins h (some s) (some dd) n i ok1 ok2 = some (LLIST_ALLOC_ERR, h, some s) := by
  by_cases hdeg : s.len = 0 ∨ i ≥ s.len
  · simp only [llist_ins]
    rw [if_neg hn, if_pos hdeg]
    exact llist_add_alloc_err h s dd n ok1 ok2 hn hok
  · cases ok1 <;> cases ok2 <;> simp_all [llist_ins, lnode_new]

/-! ## `llist_ins` at the head -/

/-- Computation of `llist_ins` at index `0` on a non-empty list with both
allocations succeeding, given the head node. -/
theorem llist_ins_eq_head (h : Heap) (s : llist_t) (d : List Byte) (n : Nat)
    (hp : Nat) (hnd : lnode_t) (hn : n ≠ 0) (hlen : s.len ≠ 0)
    (hh : s.head = some hp) (hpn : hp ≠ h.top) (hfind : h.find hp = some hnd) :
    llist_ins h (some s) (some d) n 0 true true =
      some (LLIST_OK,
        ((⟨(h.top, ⟨d.take n, none, none⟩) :: h.mem, h.top + 1⟩ : Heap).write hp
            { hnd with prev := some h.top }).write h.top ⟨d.take n, none, some hp⟩,
        some { s with head := some h.top, len := s.len + 1 }) := by
  have hdeg : ¬(s.len = 0 ∨ 0 ≥ s.len) := by omega
  have h1hp : (⟨(h.top, ⟨d.take n, none, none⟩) :: h.mem, h.top + 1⟩ : Heap).find hp =
      some hnd := by
    show findMem _ _ = _
    simp only [findMem, if_neg (Ne.symm hpn)]
    exact hfind
  have h2p : ((⟨(h.top, ⟨d.take n, none, none⟩) :: h.mem, h.top + 1⟩ : Heap).write hp
      { hnd with prev := some h.top }).find h.top = some ⟨d.take n, none, none⟩ := by
    rw [find_write_ne _ _ _ _ (Ne.symm hpn)]
    show findMem _ _ = _
    simp [findMem]
  have h3hp : (((⟨(h.top, ⟨d.take n, none, none⟩) :: h.mem, h.top + 1⟩ : Heap).write hp
      { hnd with prev := some h.top }).write h.top ⟨d.take n, none, some hp⟩).find hp =
      some { hnd with prev := some h.top } := by
    rw [find_write_ne _ _ _ _ hpn]
    exact find_write_self _ _ _ _ h1hp
  simp [llist_ins, lnode_new, Heap.alloc, hn, hlen, hdeg, hh, Heap.write?, h1hp, h2p, h3hp]

/-- Successful `llist_ins` at index `0` on a non-empty list prepends the new
node, which becomes the head. -/
theorem llist_ins_head_ok (h : Heap) (s : llist_t) (ptrs : List Nat) (d : List Byte)
    (n : Nat) (R : ListRep h s ptrs) (hn : n ≠ 0) (hne : ptrs ≠ []) :
    ∃ h2 s2, llist_ins h (some s) (some d) n 0 true true = some (LLIST_OK, h2, some s2) ∧
      ListRep h2 s2 (h.top :: ptrs) ∧
      absList h2 (h.top :: ptrs) = d.take n :: absList h ptrs ∧
      s2.head = some h.top ∧ s2.tail = s.tail ∧ s2.len = s.len + 1 ∧
      h2.top = h.top + 1 := by
  have hlen : ptrs.length ≠ 0 := fun hz => hne (List.eq_nil_of_length_eq_zero hz)
  have hlen0 : s.len ≠ 0 := by rw [R.lenEq]; exact hlen
  have h0lt : 0 < ptrs.length := by omega
  have hhead : s.head = some ptrs[0] := by
    rw [R.headEq, List.getElem?_eq_getElem h0lt]
  have hpmem : ptrs[0] ∈ ptrs := List.getElem_mem h0lt
  have hplt : ptrs[0] < h.top := R.fresh _ hpmem
  have hpn : ptrs[0] ≠ h.top := Nat.ne_of_lt hplt
  obtain ⟨hnd, hhnd, hhnext, hhprev⟩ := chainOk_find h ptrs R.chain 0 h0lt
  have hf_p : (((⟨(h.top, ⟨d.take n, none, none⟩) :: h.mem, h.top + 1⟩ : Heap).write
      ptrs[0] { hnd with prev := some h.top }).write h.top
      ⟨d.take n, none, some ptrs[0]⟩).find h.top = some ⟨d.take n, none, some ptrs[0]⟩ := by
    refine find_write_self _ _ _ ⟨d.take n, none, none⟩ ?_
    rw [find_write_ne _ _ _ _ (Ne.symm hpn)]
    show findMem _ _ = _
    simp [findMem]
  have hf_hp : (((⟨(h.top, ⟨d.take n, none, none⟩) :: h.mem, h.top + 1⟩ : Heap).write
      ptrs[0] { hnd with prev := some h.top }).write h.top
      ⟨d.take n, none, some ptrs[0]⟩).find ptrs[0] = some { hnd with prev := some h.top } := by
    rw [find_write_ne _ _ _ _ hpn]
    refine find_write_self _ _ _ hnd ?_
    show findMem _ _ = _
    simp only [findMem, if_neg (Ne.symm hpn)]
    exact hhnd
  have hf_other : ∀ q, q ≠ ptrs[0] → q ≠ h.top →
      (((⟨(h.top, ⟨d.take n, none, none⟩) :: h.mem, h.top + 1⟩ : Heap).write
        ptrs[0] { hnd with prev := some h.top }).write h.top
        ⟨d.take n, none, some ptrs[0]⟩).find q = h.find q := by
    intro q hqhp hqp
    rw [find_write_ne _ _ _ _ hqp, find_write_ne _ _ _ _ hqhp]
    show findMem _ _ = _
    simp only [findMem, if_neg (Ne.symm hqp)]
    rfl
  refine ⟨_, _, llist_ins_eq_head h s d n ptrs[0] hnd hn hlen0 hhead hpn hhnd,
    ?_, ?_, ?_, ?_, ?_, ?_⟩
  · constructor
    · intro j hj
      have hj' : j < ptrs.length + 1 := by simpa using hj
      match j, hj with
      | 0, hj0 =>
        have hget : (h.top :: ptrs)[0] = h.top := rfl
        rw [hget, hf_p]
        refine ⟨?_, ?_⟩
        · simp only [Option.map_some']
          have h1 : (h.top :: ptrs)[0 + 1]? = ptrs[0]? := List.getElem?_cons_succ
          rw [h1, List.getElem?_eq_getElem h0lt]
        · simp
      | 1, hj1 =>
        have hget : (h.top :: ptrs)[1] = ptrs[0] := rfl
        rw [hget, hf_hp]
        refine ⟨?_, ?_⟩
        · simp only [Option.map_some']
          have h1 : (h.top :: ptrs)[1 + 1]? = ptrs[1]? := List.getElem?_cons_succ
          rw [h1, hhnext]
        · simp only [Option.map_some']
          rw [if_neg (by omega : (1 : Nat) ≠ 0)]
          simp
      | (j + 2), hj2 =>
        have hj1lt : j + 1 < ptrs.length := by
          have := hj2
          simp only [List.length_cons] at this
          omega
        have hget : (h.top :: ptrs)[j + 2] = ptrs[j + 1] := rfl
        rw [hget]
        have hq0 : ptrs[j + 1] ≠ ptrs[0] :=
          nodup_getElem_ne ptrs R.nodup (j + 1) 0 hj1lt h0lt (by omega)
        have hqp : ptrs[j + 1] ≠ h.top := Nat.ne_of_lt (R.fresh _ (List.getElem_mem hj1lt))
        rw [hf_other _ hq0 hqp]
        obtain ⟨nd, hnd2, hnext2, hprev2⟩ := chainOk_find h ptrs R.chain (j + 1) hj1lt
        rw [hnd2]
        refine ⟨?_, ?_⟩
        · simp only [Option.map_some']
          have h1 : (h.top :: ptrs)[(j + 2) + 1]? = ptrs[j + 2]? := List.getElem?_cons_succ
          rw [hnext2, h1]
        · simp only [Option.map_some']
          have h1 : (h.top :: ptrs)[(j + 2) - 1]? = ptrs[j]? := List.getElem?_cons_succ
          rw [hprev2, if_neg (by omega : j + 1 ≠ 0), if_neg (by omega : j + 2 ≠ 0), h1]
          rfl
    · show some h.top = _
      simp
    · show s.tail = _
      rw [R.tailEq]
      have hlc : (h.top :: ptrs).length - 1 = (ptrs.length - 1) + 1 := by
        simp only [List.length_cons]
        omega
      have h1 : (h.top :: ptrs)[(ptrs.length - 1) + 1]? = ptrs[ptrs.length - 1]? :=
        List.getElem?_cons_succ
      rw [hlc, h1]
    · show s.len + 1 = _
      simp [R.lenEq]
    · rw [List.nodup_cons]
      refine ⟨?_, R.nodup⟩
      intro hmem
      have := R.fresh _ hmem
      omega
    · intro q hq
      show q < h.top + 1
      rcases List.mem_cons.mp hq with hq1 | hq2
      · omega
      · have := R.fresh q hq2
        omega
  · show absList _ (h.top :: ptrs) = _
    unfold absList
    rw [List.map_cons]
    congr 1
    · rw [hf_p]
    · exact absList_eq_of_data h _ ptrs (by
        intro q hq
        by_cases hqhp : q = ptrs[0]
        · subst hqhp
          rw [hf_hp, hhnd]
          rfl
        · rw [hf_other q hqhp (Nat.ne_of_lt (R.fresh q hq))])
  · rfl
  · rfl
  · rfl
  · rfl

/-! ## `llist_ins` mid-chain -/

theorem getElem?_splice {α : Type} (xs : List α) (x : α) (i j : Nat) (hi : i ≤ xs.length) :
    (xs.take i ++ x :: xs.drop i)[j]? =
      if j < i then xs[j]? else if j = i then some x else xs[j - 1]? := by
  have hlt : (xs.take i).length = i := by
    rw [List.length_take]
    omega
  by_cases h1 : j < i
  · rw [getElem?_append_l _ _ _ (by omega), List.getElem?_take]
    simp [h1]
  · by_cases h2 : j = i
    · subst h2
      rw [getElem?_append_r _ _ _ (by omega), hlt]
      simp [h1]
    · rw [getElem?_append_r _ _ _ (by omega), hlt]
      have h4 : j - i = (j - i - 1) + 1 := by omega
      rw [h4, List.getElem?_cons_succ, List.getElem?_drop, if_neg h1, if_neg h2]
      congr 1
      omega

theorem length_splice {α : Type} (xs : List α) (x : α) (i : Nat) (hi : i ≤ xs.length) :
    (xs.take i ++ x :: xs.drop i).length = xs.length + 1 := by
  simp only [List.length_append, List.length_cons, List.length_take, List.length_drop]
  omega

/-- Computation of `llist_ins` mid-chain (`0 < i < len`) with both
allocations succeeding, given the predecessor and successor nodes. -/
theorem llist_ins_eq_mid (h : Heap) (s : llist_t) (d : List Byte) (n i : Nat)
    (bef a : Nat) (befnd and : lnode_t) (hn : n ≠ 0) (hi0 : i ≠ 0)
    (hdeg : ¬(s.len = 0 ∨ i ≥ s.len))
    (hget1 : lnode_get (⟨(h.top, ⟨d.take n, none, none⟩) :: h.mem, h.top + 1⟩ : Heap)
      (some s) (i - 1) = some bef)
    (hbef : h.find bef = some befnd) (hbtop : bef ≠ h.top)
    (hanext : befnd.next = some a)
    (ha : h.find a = some and) (hatop : a ≠ h.top) (hab : a ≠ bef) :
    llist_ins h (some s) (some d) n i true true =
      some (LLIST_OK,
        ((((⟨(h.top, ⟨d.take n, none, none⟩) :: h.mem, h.top + 1⟩ : Heap).write bef
          { befnd with next := some h.top }).write h.top
          ⟨d.take n, some bef, none⟩).write a
          { and with prev := some h.top }).write h.top ⟨d.take n, some bef, some a⟩,
        some { s with len := s.len + 1 }) := by
  have hf1 : (⟨(h.top, ⟨d.take n, none, none⟩) :: h.mem, h.top + 1⟩ : Heap).find bef =
      some befnd := by
    show findMem _ _ = _
    simp only [findMem, if_neg (Ne.symm hbtop)]
    exact hbef
  have hf2 : ((⟨(h.top, ⟨d.take n, none, none⟩) :: h.mem, h.top + 1⟩ : Heap).write bef
      { befnd with next := some h.top }).find h.top = some ⟨d.take n, none, none⟩ := by
    rw [find_write_ne _ _ _ _ (Ne.symm hbtop)]
    show findMem _ _ = _
    simp [findMem]
  have hf3 : (((⟨(h.top, ⟨d.take n, none, none⟩) :: h.mem, h.top + 1⟩ : Heap).write bef
      { befnd with next := some h.top }).write h.top ⟨d.take n, some bef, none⟩).find a =
      some and := by
    rw [find_write_ne _ _ _ _ hatop, find_write_ne _ _ _ _ hab]
    show findMem _ _ = _
    simp only [findMem, if_neg (Ne.symm hatop)]
    exact ha
  have hf4 : ((((⟨(h.top, ⟨d.take n, none, none⟩) :: h.mem, h.top + 1⟩ : Heap).write bef
      { befnd with next := some h.top }).write h.top ⟨d.take n, some bef, none⟩).write a
      { and with prev := some h.top }).find h.top = some ⟨d.take n, some bef, none⟩ := by
    rw [find_write_ne _ _ _ _ (Ne.symm hatop)]
    refine find_write_self _ _ _ ⟨d.take n, none, none⟩ ?_
    rw [find_write_ne _ _ _ _ (Ne.symm hbtop)]
    show findMem _ _ = _
    simp [findMem]
  simp [llist_ins, lnode_new, Heap.alloc, hn, hi0, hdeg, Heap.write?, hget1,
    hf1, hf2, hf3, hf4, hanext]

/-- Successful `llist_ins` mid-chain splices the new node right before the
node previously at the target index. -/
theorem llist_ins_mid_ok (h : Heap) (s : llist_t) (ptrs : List Nat) (d : List Byte)
    (n i : Nat) (R : ListRep h s ptrs) (hn : n ≠ 0) (hi0 : i ≠ 0)
    (hilen : i < ptrs.length) :
    ∃ h2 s2, llist_ins h (some s) (some d) n i true true = some (LLIST_OK, h2, some s2) ∧
      ListRep h2 s2 (ptrs.take i ++ h.top :: ptrs.drop i) ∧
      absList h2 (ptrs.take i ++ h.top :: ptrs.drop i) =
        (absList h ptrs).take i ++ d.take n :: (absList h ptrs).drop i ∧
      s2.head = s.head ∧ s2.tail = s.tail ∧ s2.len = s.len + 1 ∧
      h2.top = h.top + 1 := by
  have hlen : ptrs.length ≠ 0 := by omega
  have hne : ptrs ≠ [] := fun hz => hlen (by simp [hz])
  have hdeg : ¬(s.len = 0 ∨ i ≥ s.len) := by
    rw [R.lenEq]
    omega
  have hi1lt : i - 1 < ptrs.length := by omega
  have hR1 : ListRep (h.alloc ⟨d.take n, none, none⟩).2 s ptrs :=
    listRep_alloc h s ptrs _ R
  have hget1 : lnode_get (⟨(h.top, ⟨d.take n, none, none⟩) :: h.mem, h.top + 1⟩ : Heap)
      (some s) (i - 1) = some ptrs[i - 1] := by
    have hspec := lnode_get_spec _ s ptrs (i - 1) hR1 hne
    have hcl : clampIdx ptrs.length (i - 1) = i - 1 := by
      unfold clampIdx
      rw [if_neg (by omega)]
    rw [hcl, List.getElem?_eq_getElem hi1lt] at hspec
    exact hspec
  obtain ⟨befnd, hbef, hbnext, hbprev⟩ := chainOk_find h ptrs R.chain (i - 1) hi1lt
  obtain ⟨aftnd, ha, hanext2, haprev2⟩ := chainOk_find h ptrs R.chain i hilen
  have hbnext2 : befnd.next = some ptrs[i] := by
    rw [hbnext, show i - 1 + 1 = i by omega, List.getElem?_eq_getElem hilen]
  have hbtop : ptrs[i - 1] ≠ h.top := Nat.ne_of_lt (R.fresh _ (List.getElem_mem hi1lt))
  have hatop : ptrs[i] ≠ h.top := Nat.ne_of_lt (R.fresh _ (List.getElem_mem hilen))
  have hab : ptrs[i] ≠ ptrs[i - 1] :=
    nodup_getElem_ne ptrs R.nodup i (i - 1) hilen hi1lt (by omega)
  have hFp : (((((⟨(h.top, ⟨d.take n, none, none⟩) :: h.mem, h.top + 1⟩ : Heap).write
      ptrs[i - 1] { befnd with next := some h.top }).write h.top
      ⟨d.take n, some ptrs[i - 1], none⟩).write ptrs[i]
      { aftnd with prev := some h.top }).write h.top
      ⟨d.take n, some ptrs[i - 1], some ptrs[i]⟩).find h.top =
      some ⟨d.take n, some ptrs[i - 1], some ptrs[i]⟩ := by
    refine find_write_self _ _ _ ⟨d.take n, some ptrs[i - 1], none⟩ ?_
    rw [find_write_ne _ _ _ _ (Ne.symm hatop)]
    refine find_write_self _ _ _ ⟨d.take n, none, none⟩ ?_
    rw [find_write_ne _ _ _ _ (Ne.symm hbtop)]
    show findMem _ _ = _
    simp [findMem]
  have hFbef : (((((⟨(h.top, ⟨d.take n, none, none⟩) :: h.mem, h.top + 1⟩ : Heap).write
      ptrs[i - 1] { befnd with next := some h.top }).write h.top
      ⟨d.take n, some ptrs[i - 1], none⟩).write ptrs[i]
      { aftnd with prev := some h.top }).write h.top
      ⟨d.take n, some ptrs[i - 1], some ptrs[i]⟩).find ptrs[i - 1] =
      some { befnd with next := some h.top } := by
    rw [find_write_ne _ _ _ _ hbtop, find_write_ne _ _ _ _ (Ne.symm hab),
      find_write_ne _ _ _ _ hbtop]
    refine find_write_self _ _ _ befnd ?_
    show findMem _ _ = _
    simp only [findMem, if_neg (Ne.symm hbtop)]
    exact hbef
  have hFa : (((((⟨(h.top, ⟨d.take n, none, none⟩) :: h.mem, h.top + 1⟩ : Heap).write
      ptrs[i - 1] { befnd with next := some h.top }).write h.top
      ⟨d.take n, some ptrs[i - 1], none⟩).write ptrs[i]
      { aftnd with prev := some h.top }).write h.top
      ⟨d.take n, some ptrs[i - 1], some ptrs[i]⟩).find ptrs[i] =
      some { aftnd with prev := some h.top } := by
    rw [find_write_ne _ _ _ _ hatop]
    refine find_write_self _ _ _ aftnd ?_
    rw [find_write_ne _ _ _ _ hatop, find_write_ne _ _ _ _ hab]
    show findMem _ _ = _
    simp only [findMem, if_neg (Ne.symm hatop)]
    exact ha
  have hFother : ∀ q, q ≠ ptrs[i - 1] → q ≠ ptrs[i] → q ≠ h.top →
      (((((⟨(h.top, ⟨d.take n, none, none⟩) :: h.mem, h.top + 1⟩ : Heap).write
        ptrs[i - 1] { befnd with next := some h.top }).write h.top
        ⟨d.take n, some ptrs[i - 1], none⟩).write ptrs[i]
        { aftnd with prev := some h.top }).write h.top
        ⟨d.take n, some ptrs[i - 1], some ptrs[i]⟩).find q = h.find q := by
    intro q hq1 hq2 hq3
    rw [find_write_ne _ _ _ _ hq3, find_write_ne _ _ _ _ hq2,
      find_write_ne _ _ _ _ hq3, find_write_ne _ _ _ _ hq1]
    show findMem _ _ = _
    simp only [findMem, if_neg (Ne.symm hq3)]
    rfl
  have hsp : ∀ j, (ptrs.take i ++ h.top :: ptrs.drop i)[j]? =
      if j < i then ptrs[j]? else if j = i then some h.top else ptrs[j - 1]? :=
    fun j => getElem?_splice ptrs h.top i j (Nat.le_of_lt hilen)
  have hlen2 : (ptrs.take i ++ h.top :: ptrs.drop i).length = ptrs.length + 1 :=
    length_splice ptrs h.top i (Nat.le_of_lt hilen)
  have hdata : ∀ q ∈ ptrs,
      ((((((⟨(h.top, ⟨d.take n, none, none⟩) :: h.mem, h.top + 1⟩ : Heap).write
        ptrs[i - 1] { befnd with next := some h.top }).write h.top
        ⟨d.take n, some ptrs[i - 1], none⟩).write ptrs[i]
        { aftnd with prev := some h.top }).write h.top
        ⟨d.take n, some ptrs[i - 1], some ptrs[i]⟩).find q).map lnode_t.data =
      (h.find q).map lnode_t.data := by
    intro q hq
    by_cases hq1 : q = ptrs[i - 1]
    · subst hq1
      rw [hFbef, hbef]
      rfl
    · by_cases hq2 : q = ptrs[i]
      · subst hq2
        rw [hFa, ha]
        rfl
      · rw [hFother q hq1 hq2 (Nat.ne_of_lt (R.fresh q hq))]
  refine ⟨_, _, llist_ins_eq_mid h s d n i ptrs[i - 1] ptrs[i] befnd aftnd hn hi0 hdeg
    hget1 hbef hbtop hbnext2 ha hatop hab, ?_, ?_, ?_, ?_, ?_, ?_⟩
  · constructor
    · intro j hj
      have hj' : j < ptrs.length + 1 := by omega
      by_cases hcA : j < i - 1
      · have hjlt : j < ptrs.length := by omega
        have hv : (ptrs.take i ++ h.top :: ptrs.drop i)[j] = ptrs[j] := by
          have h1 := hsp j
          rw [List.getElem?_eq_getElem hj, if_pos (by omega),
            List.getElem?_eq_getElem hjlt] at h1
          exact Option.some.inj h1
        obtain ⟨nd, hnd, hnext, hprev⟩ := chainOk_find h ptrs R.chain j hjlt
        have hq1 : ptrs[j] ≠ ptrs[i - 1] :=
          nodup_getElem_ne ptrs R.nodup j (i - 1) hjlt hi1lt (by omega)
        have hq2 : ptrs[j] ≠ ptrs[i] :=
          nodup_getElem_ne ptrs R.nodup j i hjlt hilen (by omega)
        have hq3 : ptrs[j] ≠ h.top := Nat.ne_of_lt (R.fresh _ (List.getElem_mem hjlt))
        rw [hv, hFother _ hq1 hq2 hq3, hnd]
        refine ⟨?_, ?_⟩
        · simp only [Option.map_some']
          rw [hnext, hsp (j + 1), if_pos (by omega)]
        · simp only [Option.map_some']
          rw [hprev]
          by_cases hj0 : j = 0
          · simp [hj0]
          · rw [if_neg hj0, if_neg hj0, hsp (j - 1), if_pos (by omega)]
      · by_cases hcB : j = i - 1
        · subst hcB
          have hv : (ptrs.take i ++ h.top :: ptrs.drop i)[i - 1] = ptrs[i - 1] := by
            have h1 := hsp (i - 1)
            rw [List.getElem?_eq_getElem hj, if_pos (by omega),
              List.getElem?_eq_getElem hi1lt] at h1
            exact Option.some.inj h1
          rw [hv, hFbef]
          refine ⟨?_, ?_⟩
          · simp only [Option.map_some']
            rw [show i - 1 + 1 = i by omega, hsp i, if_neg (by omega), if_pos rfl]
          · simp only [Option.map_some']
            rw [hbprev]
            by_cases h0 : i - 1 = 0
            · simp [h0]
            · rw [if_neg h0, if_neg h0, hsp (i - 1 - 1), if_pos (by omega)]
        · by_cases hcC : j = i
          · subst hcC
            have hv : (ptrs.take j ++ h.top :: ptrs.drop j)[j] = h.top := by
              have h1 := hsp j
              rw [List.getElem?_eq_getElem hj, if_neg (by omega), if_pos rfl] at h1
              exact Option.some.inj h1
            rw [hv, hFp]
            refine ⟨?_, ?_⟩
            · simp only [Option.map_some']
              rw [hsp (j + 1), if_neg (by omega), if_neg (by omega),
                show j + 1 - 1 = j by omega, List.getElem?_eq_getElem hilen]
            · simp only [Option.map_some']
              rw [if_neg hi0, hsp (j - 1), if_pos (by omega),
                List.getElem?_eq_getElem hi1lt]
          · by_cases hcD : j = i + 1
            · subst hcD
              have hv : (ptrs.take i ++ h.top :: ptrs.drop i)[i + 1] = ptrs[i] := by
                have h1 := hsp (i + 1)
                rw [List.getElem?_eq_getElem hj, if_neg (by omega), if_neg (by omega),
                  show i + 1 - 1 = i by omega, List.getElem?_eq_getElem hilen] at h1
                exact Option.some.inj h1
              rw [hv, hFa]
              refine ⟨?_, ?_⟩
              · simp only [Option.map_some']
                rw [hanext2, hsp (i + 1 + 1), if_neg (by omega), if_neg (by omega),
                  show i + 1 + 1 - 1 = i + 1 by omega]
              · simp only [Option.map_some']
                rw [if_neg (by omega : i + 1 ≠ 0), show i + 1 - 1 = i by omega,
                  hsp i, if_neg (by omega), if_pos rfl]
            · have hj1lt : j - 1 < ptrs.length := by omega
              have hv : (ptrs.take i ++ h.top :: ptrs.drop i)[j] = ptrs[j - 1] := by
                have h1 := hsp j
                rw [List.getElem?_eq_getElem hj, if_neg (by omega), if_neg (by omega),
                  List.getElem?_eq_getElem hj1lt] at h1
                exact Option.some.inj h1
              obtain ⟨nd, hnd, hnext, hprev⟩ := chainOk_find h ptrs R.chain (j - 1) hj1lt
              have hq1 : ptrs[j - 1] ≠ ptrs[i - 1] :=
                nodup_getElem_ne ptrs R.nodup (j - 1) (i - 1) hj1lt hi1lt (by omega)
              have hq2 : ptrs[j - 1] ≠ ptrs[i] :=
                nodup_getElem_ne ptrs R.nodup (j - 1) i hj1lt hilen (by omega)
              have hq3 : ptrs[j - 1] ≠ h.top :=
                Nat.ne_of_lt (R.fresh _ (List.getElem_mem hj1lt))
              rw [hv, hFother _ hq1 hq2 hq3, hnd]
              refine ⟨?_, ?_⟩
              · simp only [Option.map_some']
                rw [hnext, show j - 1 + 1 = j by omega, hsp (j + 1),
                  if_neg (by omega), if_neg (by omega), show j + 1 - 1 = j by omega]
              · simp only [Option.map_some']
                rw [hprev, if_neg (by omega : ¬(j - 1 = 0)), if_neg (by omega : ¬(j = 0)),
                  hsp (j - 1), if_neg (by omega), if_neg (by omega)]
    · show s.head = _
      rw [R.headEq, hsp 0, if_pos (by omega)]
    · show s.tail = _
      rw [R.tailEq, show (ptrs.take i ++ h.top :: ptrs.drop i).length - 1 = ptrs.length
        by omega, hsp ptrs.length, if_neg (by omega), if_neg (by omega)]
    · show s.len + 1 = _
      rw [hlen2, R.lenEq]
    · have hperm : (ptrs.take i ++ h.top :: ptrs.drop i).Perm
        (h.top :: (ptrs.take i ++ ptrs.drop i)) := List.perm_middle
      rw [List.take_append_drop] at hperm
      rw [hperm.nodup_iff, List.nodup_cons]
      exact ⟨fun hmem => absurd (R.fresh _ hmem) (by omega), R.nodup⟩
    · intro q hq
      show q < h.top + 1
      have hperm : (ptrs.take i ++ h.top :: ptrs.drop i).Perm
        (h.top :: (ptrs.take i ++ ptrs.drop i)) := List.perm_middle
      rw [List.take_append_drop] at hperm
      rcases List.mem_cons.mp (hperm.mem_iff.mp hq) with hq1 | hq2
      · omega
      · have := R.fresh q hq2
        omega
  · rw [absList_append]
    congr 1
    · rw [absList_eq_of_data h _ (ptrs.take i)
        (fun q hq => hdata q (List.mem_of_mem_take hq))]
      unfold absList
      exact List.map_take _ ptrs i
    · show absList _ (h.top :: ptrs.drop i) = _
      unfold absList
      rw [List.map_cons]
      congr 1
      · show (match Heap.find _ h.top with
          | some nd => nd.data
          | none => []) = d.take n
        rw [hFp]
      · show absList _ (ptrs.drop i) = _
        rw [absList_eq_of_data h _ (ptrs.drop i)
          (fun q hq => hdata q (List.mem_of_mem_drop hq))]
        unfold absList
        exact List.map_drop _ ptrs i
  · rfl
  · rfl
  · rfl
  · rfl

/-! ## `llist_del` -/

theorem getElem?_removeIdx {α : Type} (xs : List α) (i j : Nat) (hi : i < xs.length) :
    (xs.take i ++ xs.drop (i + 1))[j]? = if j < i then xs[j]? else xs[j + 1]? := by
  have hlt : (xs.take i).length = i := by
    rw [List.length_take]
    omega
  by_cases h1 : j < i
  · rw [getElem?_append_l _ _ _ (by omega), List.getElem?_take]
    simp [h1]
  · rw [getElem?_append_r _ _ _ (by omega), hlt, List.getElem?_drop, if_neg h1]
    congr 1
    omega

theorem length_removeIdx {α : Type} (xs : List α) (i : Nat) (hi : i < xs.length) :
    (xs.take i ++ xs.drop (i + 1)).length = xs.length - 1 := by
  simp only [List.length_append, List.length_take, List.length_drop]
  omega

/-- `llist_del` on an empty list: no node resolves, nothing happens. -/
theorem llist_del_empty (h : Heap) (s : llist_t) (i : Nat) (hlen : s.len = 0) :
    llist_del h (some s) i = some (none, h, some s) := by
  simp [llist_del, lnode_get, hlen]

/-- Computation of `llist_del` when the list has exactly one node. -/
theorem llist_del_eq_single (h : Heap) (s : llist_t) (i : Nat) (q : Nat) (nd : lnode_t)
    (hlen : s.len = 1) (hget : lnode_get h (some s) i = some q)
    (hq : h.find q = some nd) :
    llist_del h (some s) i = some (some nd.data, h.erase q,
      some { s with head := none, tail := none, len := s.len - 1 }) := by
  simp [llist_del, hget, hlen, lnode_free, hq]

/-- Computation of `llist_del` at index `0` on a list of length at least 2. -/
theorem llist_del_eq_head (h : Heap) (s : llist_t) (hp p1 : Nat) (hnd nd2 : lnode_t)
    (hlen : s.len ≠ 1) (hget : lnode_get h (some s) 0 = some hp)
    (hhead : s.head = some hp) (hfind : h.find hp = some hnd)
    (hnext : hnd.next = some p1) (hfind1 : h.find p1 = some nd2)
    (hne : hp ≠ p1) :
    llist_del h (some s) 0 = some (some hnd.data,
      (h.write p1 { nd2 with prev := none }).erase hp,
      some { s with head := some p1, len := s.len - 1 }) := by
  have hf2 : (h.write p1 { nd2 with prev := none }).find hp = some hnd := by
    rw [find_write_ne _ _ _ _ hne]
    exact hfind
  simp [llist_del, hget, hlen, hhead, hfind, hnext, Heap.write?, hfind1,
    lnode_free, hf2]

/-- Computation of `llist_del` at an index at or past the tail on a list of
length at least 2. -/
theorem llist_del_eq_tail (h : Heap) (s : llist_t) (i : Nat) (tp nt : Nat)
    (tnd ntnd : lnode_t) (hlen : s.len ≠ 1) (hi0 : i ≠ 0) (hitail : i ≥ s.len - 1)
    (hget : lnode_get h (some s) i = some tp)
    (htail : s.tail = some tp) (hfind : h.find tp = some tnd)
    (hprev : tnd.prev = some nt) (hfnt : h.find nt = some ntnd)
    (hne : tp ≠ nt) :
    llist_del h (some s) i = some (some tnd.data,
      (h.write nt { ntnd with next := none }).erase tp,
      some { s with tail := some nt, len := s.len - 1 }) := by
  have hf2 : (h.write nt { ntnd with next := none }).find tp = some tnd := by
    rw [find_write_ne _ _ _ _ hne]
    exact hfind
  simp [llist_del, hget, hlen, hi0, hitail, htail, hfind, hprev, Heap.write?,
    hfnt, lnode_free, hf2]

/-- Computation of `llist_del` at a strictly interior index. -/
theorem llist_del_eq_mid (h : Heap) (s : llist_t) (i : Nat) (nodep pv nx : Nat)
    (nnd pvnd nxnd : lnode_t) (hlen : s.len ≠ 1) (hi0 : i ≠ 0)
    (himid : ¬(i ≥ s.len - 1)) (hget : lnode_get h (some s) i = some nodep)
    (hfnode : h.find nodep = some nnd) (hprev : nnd.prev = some pv)
    (hfpv : h.find pv = some pvnd) (hnext : nnd.next = some nx)
    (hfnx : h.find nx = some nxnd)
    (hnpv : nodep ≠ pv) (hnnx : nodep ≠ nx) (hpvnx : nx ≠ pv) :
    llist_del h (some s) i = some (some nnd.data,
      ((h.write pv { pvnd with next := some nx }).write nx
        { nxnd with prev := some pv }).erase nodep,
      some { s with len := s.len - 1 }) := by
  have hf2 : (h.write pv { pvnd with next := some nx }).find nodep = some nnd := by
    rw [find_write_ne _ _ _ _ hnpv]
    exact hfnode
  have hf3 : (h.write pv { pvnd with next := some nx }).find nx = some nxnd := by
    rw [find_write_ne _ _ _ _ hpvnx]
    exact hfnx
  have hf4 : ((h.write pv { pvnd with next := some nx }).write nx
      { nxnd with prev := some pv }).find nodep = some nnd := by
    rw [find_write_ne _ _ _ _ hnnx]
    exact hf2
  simp [llist_del, hget, hlen, hi0, himid, hfnode, hprev, Heap.write?, hfpv,
    hf2, hnext, hf3, hf4, lnode_free]

theorem removeIdx_sublist {α : Type} (xs : List α) (i : Nat) :
    List.Sublist (xs.take i ++ xs.drop (i + 1)) xs := by
  have h1 : List.Sublist (xs.drop (i + 1)) (xs.drop i) := by
    have h2 := List.drop_sublist 1 (xs.drop i)
    rwa [List.drop_drop] at h2
  have h3 := h1.append_left (xs.take i)
  rw [List.take_append_drop] at h3
  exact h3

theorem not_mem_removeIdx (xs : List Nat) (i : Nat) (hn : xs.Nodup)
    (hi : i < xs.length) : xs[i] ∉ (xs.take i ++ xs.drop (i + 1)) := by
  intro hmem
  rcases List.mem_append.mp hmem with hm | hm
  · obtain ⟨k, hk, hkq⟩ := List.mem_iff_getElem.mp hm
    have hk2 : k < i := by
      have hk3 := hk
      rw [List.length_take] at hk3
      omega
    have hk4 : k < xs.length := by omega
    have hkq2 : (xs.take i)[k]? = some xs[i] := by
      rw [List.getElem?_eq_getElem hk, hkq]
    rw [List.getElem?_take, if_pos hk2, List.getElem?_eq_getElem hk4] at hkq2
    exact nodup_getElem_ne xs hn k i hk4 hi (by omega) (Option.some.inj hkq2)
  · obtain ⟨k, hk, hkq⟩ := List.mem_iff_getElem.mp hm
    have hk3 := hk
    rw [List.length_drop] at hk3
    have hk4 : i + 1 + k < xs.length := by omega
    have hkq2 : (xs.drop (i + 1))[k]? = some xs[i] := by
      rw [List.getElem?_eq_getElem hk, hkq]
    rw [List.getElem?_drop, List.getElem?_eq_getElem hk4] at hkq2
    exact nodup_getElem_ne xs hn (i + 1 + k) i hk4 hi (by omega) (Option.some.inj hkq2)

/-- Successful `llist_del` on a non-empty list removes exactly the node at the
clamped index, returns its payload, and decrements the length. -/
theorem llist_del_ok (h : Heap) (s : llist_t) (ptrs : List Nat) (i : Nat)
    (R : ListRep h s ptrs) (hne : ptrs ≠ []) :
    ∃ h2 s2, llist_del h (some s) i =
      some (some ((absList h ptrs).getD (clampIdx ptrs.length i) []), h2, some s2) ∧
      ListRep h2 s2 (ptrs.take (clampIdx ptrs.length i) ++
        ptrs.drop (clampIdx ptrs.length i + 1)) ∧
      absList h2 (ptrs.take (clampIdx ptrs.length i) ++
        ptrs.drop (clampIdx ptrs.length i + 1)) =
        (absList h ptrs).take (clampIdx ptrs.length i) ++
        (absList h ptrs).drop (clampIdx ptrs.length i + 1) ∧
      s2.len = s.len - 1 ∧ h2.top = h.top := by
  have hlen : ptrs.length ≠ 0 := fun hz => hne (List.eq_nil_of_length_eq_zero hz)
  have hlen0 : s.len ≠ 0 := by rw [R.lenEq]; exact hlen
  have h0lt : 0 < ptrs.length := by omega
  by_cases hlen1 : s.len = 1
  · -- single node
    have hplen1 : ptrs.length = 1 := by rw [← R.lenEq]; exact hlen1
    have hjv : clampIdx ptrs.length i = 0 := by
      unfold clampIdx
      split <;> omega
    rw [hjv]
    have hget : lnode_get h (some s) i = some ptrs[0] := by
      rw [lnode_get_spec h s ptrs i R hne, hjv, List.getElem?_eq_getElem h0lt]
    obtain ⟨nd, hnd, _, _⟩ := chainOk_find h ptrs R.chain 0 h0lt
    have hpay : (absList h ptrs).getD 0 [] = nd.data := by
      rw [List.getD_eq_getElem?_getD]
      unfold absList
      rw [List.getElem?_map, List.getElem?_eq_getElem h0lt]
      simp [hnd]
    rw [hpay]
    have hnil : ptrs.take 0 ++ ptrs.drop 1 = [] := by
      rw [List.take_zero, List.nil_append]
      have : ptrs.length ≤ 1 := by omega
      simp [List.drop_eq_nil_of_le this]
    refine ⟨_, _, llist_del_eq_single h s i ptrs[0] nd hlen1 hget hnd, ?_, ?_, rfl, rfl⟩
    · rw [hnil]
      constructor
      · exact chainOk_nil _
      · rfl
      · rfl
      · simp [hlen1]
      · simp
      · intro p hp
        simp at hp
    · rw [hnil]
      have h1 : (absList h ptrs).length = 1 := by rw [absList_length]; exact hplen1
      have h2 : (absList h ptrs).take 0 ++ (absList h ptrs).drop 1 = [] := by
        rw [List.take_zero, List.nil_append, List.drop_eq_nil_of_le (by omega)]
      rw [h2]
      rfl
  · by_cases hi0 : i = 0
    · -- delete the head, length at least 2
      subst hi0
      have hlen2 : 2 ≤ ptrs.length := by
        have := R.lenEq
        omega
      have hjv : clampIdx ptrs.length 0 = 0 := by
        unfold clampIdx
        split <;> omega
      rw [hjv]
      have hget : lnode_get h (some s) 0 = some ptrs[0] := by
        rw [lnode_get_spec h s ptrs 0 R hne, hjv, List.getElem?_eq_getElem h0lt]
      have h1lt : 1 < ptrs.length := by omega
      obtain ⟨nd0, hnd0, hnext0, _⟩ := chainOk_find h ptrs R.chain 0 h0lt
      obtain ⟨nd1, hnd1, hnext1, hprev1⟩ := chainOk_find h ptrs R.chain 1 h1lt
      have hnext0s : nd0.next = some ptrs[1] := by
        rw [hnext0, List.getElem?_eq_getElem h1lt]
      have hhead : s.head = some ptrs[0] := by
        rw [R.headEq, List.getElem?_eq_getElem h0lt]
      have hne01 : ptrs[0] ≠ ptrs[1] := nodup_getElem_ne ptrs R.nodup 0 1 h0lt h1lt (by omega)
      have hpay : (absList h ptrs).getD 0 [] = nd0.data := by
        rw [List.getD_eq_getElem?_getD]
        unfold absList
        rw [List.getElem?_map, List.getElem?_eq_getElem h0lt]
        simp [hnd0]
      rw [hpay]
      have hrm : ∀ jx, (ptrs.take 0 ++ ptrs.drop (0 + 1))[jx]? = ptrs[jx + 1]? := by
        intro jx
        rw [getElem?_removeIdx ptrs 0 jx h0lt]
        simp
      have hlen' : (ptrs.take 0 ++ ptrs.drop (0 + 1)).length = ptrs.length - 1 :=
        length_removeIdx ptrs 0 h0lt
      have hF1 : ((h.write ptrs[1] { nd1 with prev := none }).erase ptrs[0]).find
          ptrs[1] = some { nd1 with prev := none } := by
        rw [find_erase_ne _ _ _ (Ne.symm hne01)]
        exact find_write_self _ _ _ _ hnd1
      have hFother : ∀ q, q ≠ ptrs[0] → q ≠ ptrs[1] →
          ((h.write ptrs[1] { nd1 with prev := none }).erase ptrs[0]).find q =
          h.find q := by
        intro q hq0 hq1
        rw [find_erase_ne _ _ _ hq0, find_write_ne _ _ _ _ hq1]
      have hsub : List.Sublist (ptrs.take 0 ++ ptrs.drop (0 + 1)) ptrs :=
        removeIdx_sublist ptrs 0
      have hnotmem : ptrs[0] ∉ (ptrs.take 0 ++ ptrs.drop (0 + 1)) :=
        not_mem_removeIdx ptrs 0 R.nodup h0lt
      have hdata : ∀ q ∈ (ptrs.take 0 ++ ptrs.drop (0 + 1)),
          (((h.write ptrs[1] { nd1 with prev := none }).erase ptrs[0]).find q).map
            lnode_t.data = (h.find q).map lnode_t.data := by
        intro q hq
        have hq0 : q ≠ ptrs[0] := fun he => hnotmem (he ▸ hq)
        by_cases hq1 : q = ptrs[1]
        · subst hq1
          rw [hF1, hnd1]
          rfl
        · rw [hFother q hq0 hq1]
      refine ⟨_, _, llist_del_eq_head h s ptrs[0] ptrs[1] nd0 nd1 hlen1 hget hhead
        hnd0 hnext0s hnd1 hne01, ?_, ?_, rfl, rfl⟩
      · constructor
        · intro jx hjx
          have hjx' : jx < ptrs.length - 1 := by omega
          have hjx1 : jx + 1 < ptrs.length := by omega
          have hv : (ptrs.take 0 ++ ptrs.drop (0 + 1))[jx] = ptrs[jx + 1] := by
            have h1 := hrm jx
            rw [List.getElem?_eq_getElem hjx, List.getElem?_eq_getElem hjx1] at h1
            exact Option.some.inj h1
          rw [hv]
          by_cases hjx0 : jx = 0
          · subst hjx0
            rw [hF1]
            refine ⟨?_, ?_⟩
            · simp only [Option.map_some']
              rw [hnext1, hrm 1]
            · simp
          · have hq0 : ptrs[jx + 1] ≠ ptrs[0] :=
              nodup_getElem_ne ptrs R.nodup (jx + 1) 0 hjx1 h0lt (by omega)
            have hq1 : ptrs[jx + 1] ≠ ptrs[1] :=
              nodup_getElem_ne ptrs R.nodup (jx + 1) 1 hjx1 h1lt (by omega)
            rw [hFother _ hq0 hq1]
            obtain ⟨nd, hnd, hnext, hprev⟩ := chainOk_find h ptrs R.chain (jx + 1) hjx1
            rw [hnd]
            refine ⟨?_, ?_⟩
            · simp only [Option.map_some']
              rw [hnext, hrm (jx + 1)]
            · simp only [Option.map_some']
              rw [hprev, if_neg (by omega : ¬(jx + 1 = 0)), if_neg hjx0, hrm (jx - 1),
                show jx - 1 + 1 = jx by omega]
              rfl
        · show some ptrs[1] = _
          rw [hrm 0, List.getElem?_eq_getElem h1lt]
        · show s.tail = _
          rw [R.tailEq, show (ptrs.take 0 ++ ptrs.drop (0 + 1)).length - 1 =
            ptrs.length - 2 by omega, hrm (ptrs.length - 2),
            show ptrs.length - 2 + 1 = ptrs.length - 1 by omega]
        · show s.len - 1 = _
          rw [hlen', R.lenEq]
        · exact R.nodup.sublist hsub
        · intro q hq
          show q < h.top
          exact R.fresh q (hsub.subset hq)
      · rw [absList_append, absList_eq_of_data h _ _
          (fun q hq => hdata q (List.mem_append_left _ hq)),
          absList_eq_of_data h _ _
          (fun q hq => hdata q (List.mem_append_right _ hq))]
        unfold absList
        rw [List.map_take, List.map_drop]
    · by_cases htail : i ≥ s.len - 1
      · -- delete the tail, length at least 2
        have hslen : s.len = ptrs.length := R.lenEq
        have hlen2 : 2 ≤ ptrs.length := by omega
        have hjm1 : ptrs.length - 1 < ptrs.length := by omega
        have hjm2 : ptrs.length - 2 < ptrs.length := by omega
        have hjv : clampIdx ptrs.length i = ptrs.length - 1 := by
          unfold clampIdx
          split <;> omega
        rw [hjv]
        have hget : lnode_get h (some s) i = some ptrs[ptrs.length - 1] := by
          rw [lnode_get_spec h s ptrs i R hne, hjv, List.getElem?_eq_getElem hjm1]
        have htailp : s.tail = some ptrs[ptrs.length - 1] := by
          rw [R.tailEq, List.getElem?_eq_getElem hjm1]
        obtain ⟨tnd, htnd, htnext, htprev⟩ :=
          chainOk_find h ptrs R.chain (ptrs.length - 1) hjm1
        obtain ⟨ntnd, hntnd, hntnext, hntprev⟩ :=
          chainOk_find h ptrs R.chain (ptrs.length - 2) hjm2
        have htprevs : tnd.prev = some ptrs[ptrs.length - 2] := by
          rw [htprev, if_neg (by omega : ¬(ptrs.length - 1 = 0)),
            show ptrs.length - 1 - 1 = ptrs.length - 2 by omega,
            List.getElem?_eq_getElem hjm2]
        have hneT : ptrs[ptrs.length - 1] ≠ ptrs[ptrs.length - 2] :=
          nodup_getElem_ne ptrs R.nodup _ _ hjm1 hjm2 (by omega)
        have hpay : (absList h ptrs).getD (ptrs.length - 1) [] = tnd.data := by
          rw [List.getD_eq_getElem?_getD]
          unfold absList
          rw [List.getElem?_map, List.getElem?_eq_getElem hjm1]
          simp [htnd]
        rw [hpay]
        have hrm : ∀ jx, (ptrs.take (ptrs.length - 1) ++
            ptrs.drop (ptrs.length - 1 + 1))[jx]? =
            if jx < ptrs.length - 1 then ptrs[jx]? else ptrs[jx + 1]? :=
          fun jx => getElem?_removeIdx ptrs (ptrs.length - 1) jx hjm1
        have hlen' : (ptrs.take (ptrs.length - 1) ++
            ptrs.drop (ptrs.length - 1 + 1)).length = ptrs.length - 1 :=
          length_removeIdx ptrs (ptrs.length - 1) hjm1
        have hF1 : ((h.write ptrs[ptrs.length - 2] { ntnd with next := none }).erase
            ptrs[ptrs.length - 1]).find ptrs[ptrs.length - 2] =
            some { ntnd with next := none } := by
          rw [find_erase_ne _ _ _ (Ne.symm hneT)]
          exact find_write_self _ _ _ _ hntnd
        have hFother : ∀ q, q ≠ ptrs[ptrs.length - 1] → q ≠ ptrs[ptrs.length - 2] →
            ((h.write ptrs[ptrs.length - 2] { ntnd with next := none }).erase
            ptrs[ptrs.length - 1]).find q = h.find q := by
          intro q hq0 hq1
          rw [find_erase_ne _ _ _ hq0, find_write_ne _ _ _ _ hq1]
        have hsub : List.Sublist (ptrs.take (ptrs.length - 1) ++
            ptrs.drop (ptrs.length - 1 + 1)) ptrs :=
          removeIdx_sublist ptrs (ptrs.length - 1)
        have hnotmem : ptrs[ptrs.length - 1] ∉ (ptrs.take (ptrs.length - 1) ++
            ptrs.drop (ptrs.length - 1 + 1)) :=
          not_mem_removeIdx ptrs (ptrs.length - 1) R.nodup hjm1
        have hdata : ∀ q ∈ (ptrs.take (ptrs.length - 1) ++
            ptrs.drop (ptrs.length - 1 + 1)),
            (((h.write ptrs[ptrs.length - 2] { ntnd with next := none }).erase
              ptrs[ptrs.length - 1]).find q).map lnode_t.data =
            (h.find q).map lnode_t.data := by
          intro q hq
          have hq0 : q ≠ ptrs[ptrs.length - 1] := fun he => hnotmem (he ▸ hq)
          by_cases hq1 : q = ptrs[ptrs.length - 2]
          · subst hq1
            rw [hF1, hntnd]
            rfl
          · rw [hFother q hq0 hq1]
        refine ⟨_, _, llist_del_eq_tail h s i ptrs[ptrs.length - 1]
          ptrs[ptrs.length - 2] tnd ntnd hlen1 hi0 htail hget htailp htnd htprevs
          hntnd hneT, ?_, ?_, rfl, rfl⟩
        · constructor
          · intro jx hjx
            have hjx' : jx < ptrs.length - 1 := by omega
            have hjxlt : jx < ptrs.length := by omega
            have hv : (ptrs.take (ptrs.length - 1) ++
                ptrs.drop (ptrs.length - 1 + 1))[jx] = ptrs[jx] := by
              have h1 := hrm jx
              rw [List.getElem?_eq_getElem hjx, if_pos hjx',
                List.getElem?_eq_getElem (by omega : jx < ptrs.length)] at h1
              exact Option.some.inj h1
            rw [hv]
            by_cases hjlast : jx = ptrs.length - 2
            · subst hjlast
              rw [hF1]
              refine ⟨?_, ?_⟩
              · simp only [Option.map_some']
                rw [show ptrs.length - 2 + 1 = ptrs.length - 1 by omega,
                  hrm (ptrs.length - 1), if_neg (by omega),
                  List.getElem?_eq_none (by omega)]
              · simp only [Option.map_some']
                rw [hntprev]
                by_cases h0 : ptrs.length - 2 = 0
                · simp [h0]
                · rw [if_neg h0, if_neg h0, hrm (ptrs.length - 2 - 1),
                    if_pos (by omega)]
            · have hq0 : ptrs[jx] ≠ ptrs[ptrs.length - 1] :=
                nodup_getElem_ne ptrs R.nodup jx (ptrs.length - 1) hjxlt hjm1
                  (by omega)
              have hq1 : ptrs[jx] ≠ ptrs[ptrs.length - 2] :=
                nodup_getElem_ne ptrs R.nodup jx (ptrs.length - 2) hjxlt hjm2
                  hjlast
              rw [hFother _ hq0 hq1]
              obtain ⟨nd, hnd, hnext, hprev⟩ :=
                chainOk_find h ptrs R.chain jx (by omega)
              rw [hnd]
              refine ⟨?_, ?_⟩
              · simp only [Option.map_some']
                rw [hnext, hrm (jx + 1), if_pos (by omega)]
              · simp only [Option.map_some']
                rw [hprev]
                by_cases hjx0 : jx = 0
                · simp [hjx0]
                · rw [if_neg hjx0, if_neg hjx0, hrm (jx - 1), if_pos (by omega)]
          · show s.head = _
            rw [R.headEq, hrm 0, if_pos (by omega)]
          · show some ptrs[ptrs.length - 2] = _
            rw [show (ptrs.take (ptrs.length - 1) ++
              ptrs.drop (ptrs.length - 1 + 1)).length - 1 = ptrs.length - 2 by omega,
              hrm (ptrs.length - 2), if_pos (by omega),
              List.getElem?_eq_getElem hjm2]
          · show s.len - 1 = _
            rw [hlen', R.lenEq]
          · exact R.nodup.sublist hsub
          · intro q hq
            show q < h.top
            exact R.fresh q (hsub.subset hq)
        · rw [absList_append, absList_eq_of_data h _ _
            (fun q hq => hdata q (List.mem_append_left _ hq)),
            absList_eq_of_data h _ _
            (fun q hq => hdata q (List.mem_append_right _ hq))]
          unfold absList
          rw [List.map_take, List.map_drop]
      · -- delete a strictly interior node
        have hslen : s.len = ptrs.length := R.lenEq
        have hilt : i < ptrs.length := by omega
        have him1 : i - 1 < ptrs.length := by omega
        have hip1 : i + 1 < ptrs.length := by omega
        have hjv : clampIdx ptrs.length i = i := by
          unfold clampIdx
          split <;> omega
        rw [hjv]
        have hget : lnode_get h (some s) i = some ptrs[i] := by
          rw [lnode_get_spec h s ptrs i R hne, hjv, List.getElem?_eq_getElem hilt]
        obtain ⟨nnd, hnnd, hnnext, hnprev⟩ := chainOk_find h ptrs R.chain i hilt
        obtain ⟨pvnd, hpvnd, hpvnext, hpvprev⟩ :=
          chainOk_find h ptrs R.chain (i - 1) him1
        obtain ⟨nxnd, hnxnd, hnxnext, hnxprev⟩ :=
          chainOk_find h ptrs R.chain (i + 1) hip1
        have hnprevs : nnd.prev = some ptrs[i - 1] := by
          rw [hnprev, if_neg hi0, List.getElem?_eq_getElem him1]
        have hnnexts : nnd.next = some ptrs[i + 1] := by
          rw [hnnext, List.getElem?_eq_getElem hip1]
        have hnpv : ptrs[i] ≠ ptrs[i - 1] :=
          nodup_getElem_ne ptrs R.nodup i (i - 1) hilt him1 (by omega)
        have hnnx : ptrs[i] ≠ ptrs[i + 1] :=
          nodup_getElem_ne ptrs R.nodup i (i + 1) hilt hip1 (by omega)
        have hpvnx : ptrs[i + 1] ≠ ptrs[i - 1] :=
          nodup_getElem_ne ptrs R.nodup (i + 1) (i - 1) hip1 him1 (by omega)
        have hpay : (absList h ptrs).getD i [] = nnd.data := by
          rw [List.getD_eq_getElem?_getD]
          unfold absList
          rw [List.getElem?_map, List.getElem?_eq_getElem hilt]
          simp [hnnd]
        rw [hpay]
        have hrm : ∀ jx, (ptrs.take i ++ ptrs.drop (i + 1))[jx]? =
            if jx < i then ptrs[jx]? else ptrs[jx + 1]? :=
          fun jx => getElem?_removeIdx ptrs i jx hilt
        have hlen' : (ptrs.take i ++ ptrs.drop (i + 1)).length = ptrs.length - 1 :=
          length_removeIdx ptrs i hilt
        have hFpv : (((h.write ptrs[i - 1] { pvnd with next := some ptrs[i + 1] }).write
            ptrs[i + 1] { nxnd with prev := some ptrs[i - 1] }).erase ptrs[i]).find
            ptrs[i - 1] = some { pvnd with next := some ptrs[i + 1] } := by
          rw [find_erase_ne _ _ _ (Ne.symm hnpv), find_write_ne _ _ _ _ (Ne.symm hpvnx)]
          exact find_write_self _ _ _ _ hpvnd
        have hFnx : (((h.write ptrs[i - 1] { pvnd with next := some ptrs[i + 1] }).write
            ptrs[i + 1] { nxnd with prev := some ptrs[i - 1] }).erase ptrs[i]).find
            ptrs[i + 1] = some { nxnd with prev := some ptrs[i - 1] } := by
          rw [find_erase_ne _ _ _ (Ne.symm hnnx)]
          refine find_write_self _ _ _ nxnd ?_
          rw [find_write_ne _ _ _ _ hpvnx]
          exact hnxnd
        have hFother : ∀ q, q ≠ ptrs[i] → q ≠ ptrs[i - 1] → q ≠ ptrs[i + 1] →
            (((h.write ptrs[i - 1] { pvnd with next := some ptrs[i + 1] }).write
            ptrs[i + 1] { nxnd with prev := some ptrs[i - 1] }).erase ptrs[i]).find q =
            h.find q := by
          intro q hq0 hq1 hq2
          rw [find_erase_ne _ _ _ hq0, find_write_ne _ _ _ _ hq2,
            find_write_ne _ _ _ _ hq1]
        have hsub : List.Sublist (ptrs.take i ++ ptrs.drop (i + 1)) ptrs :=
          removeIdx_sublist ptrs i
        have hnotmem : ptrs[i] ∉ (ptrs.take i ++ ptrs.drop (i + 1)) :=
          not_mem_removeIdx ptrs i R.nodup hilt
        have hdata : ∀ q ∈ (ptrs.take i ++ ptrs.drop (i + 1)),
            ((((h.write ptrs[i - 1] { pvnd with next := some ptrs[i + 1] }).write
              ptrs[i + 1] { nxnd with prev := some ptrs[i - 1] }).erase ptrs[i]).find
              q).map lnode_t.data = (h.find q).map lnode_t.data := by
          intro q hq
          have hq0 : q ≠ ptrs[i] := fun he => hnotmem (he ▸ hq)
          by_cases hq1 : q = ptrs[i - 1]
          · subst hq1
            rw [hFpv, hpvnd]
            rfl
          · by_cases hq2 : q = ptrs[i + 1]
            · subst hq2
              rw [hFnx, hnxnd]
              rfl
            · rw [hFother q hq0 hq1 hq2]
        refine ⟨_, _, llist_del_eq_mid h s i ptrs[i] ptrs[i - 1] ptrs[i + 1]
          nnd pvnd nxnd hlen1 hi0 htail hget hnnd hnprevs hpvnd hnnexts hnxnd
          hnpv hnnx (Ne.symm (Ne.symm hpvnx)), ?_, ?_, rfl, rfl⟩
        · constructor
          · intro jx hjx
            have hjx' : jx < ptrs.length - 1 := by omega
            by_cases hcA : jx < i - 1
            · have hjlt : jx < ptrs.length := by omega
              have hv : (ptrs.take i ++ ptrs.drop (i + 1))[jx] = ptrs[jx] := by
                have h1 := hrm jx
                rw [List.getElem?_eq_getElem hjx, if_pos (by omega),
                  List.getElem?_eq_getElem hjlt] at h1
                exact Option.some.inj h1
              obtain ⟨nd, hnd, hnext, hprev⟩ := chainOk_find h ptrs R.chain jx hjlt
              have hq0 : ptrs[jx] ≠ ptrs[i] :=
                nodup_getElem_ne ptrs R.nodup jx i hjlt hilt (by omega)
              have hq1 : ptrs[jx] ≠ ptrs[i - 1] :=
                nodup_getElem_ne ptrs R.nodup jx (i - 1) hjlt him1 (by omega)
              have hq2 : ptrs[jx] ≠ ptrs[i + 1] :=
                nodup_getElem_ne ptrs R.nodup jx (i + 1) hjlt hip1 (by omega)
              rw [hv, hFother _ hq0 hq1 hq2, hnd]
              refine ⟨?_, ?_⟩
              · simp only [Option.map_some']
                rw [hnext, hrm (jx + 1), if_pos (by omega)]
              · simp only [Option.map_some']
                rw [hprev]
                by_cases hjx0 : jx = 0
                · simp [hjx0]
                · rw [if_neg hjx0, if_neg hjx0, hrm (jx - 1), if_pos (by omega)]
            · by_cases hcB : jx = i - 1
              · subst hcB
                have hv : (ptrs.take i ++ ptrs.drop (i + 1))[i - 1] = ptrs[i - 1] := by
                  have h1 := hrm (i - 1)
                  rw [List.getElem?_eq_getElem hjx, if_pos (by omega),
                    List.getElem?_eq_getElem him1] at h1
                  exact Option.some.inj h1
                rw [hv, hFpv]
                refine ⟨?_, ?_⟩
                · simp only [Option.map_some']
                  rw [show i - 1 + 1 = i by omega, hrm i, if_neg (by omega),
                    List.getElem?_eq_getElem hip1]
                · simp only [Option.map_some']
                  rw [hpvprev]
                  by_cases h0 : i - 1 = 0
                  · simp [h0]
                  · rw [if_neg h0, if_neg h0, hrm (i - 1 - 1), if_pos (by omega)]
              · by_cases hcC : jx = i
                · subst hcC
                  have hv : (ptrs.take jx ++ ptrs.drop (jx + 1))[jx] = ptrs[jx + 1] := by
                    have h1 := hrm jx
                    rw [List.getElem?_eq_getElem hjx, if_neg (by omega),
                      List.getElem?_eq_getElem hip1] at h1
                    exact Option.some.inj h1
                  rw [hv, hFnx]
                  refine ⟨?_, ?_⟩
                  · simp only [Option.map_some']
                    rw [hnxnext, hrm (jx + 1), if_neg (by omega)]
                  · simp only [Option.map_some']
                    rw [if_neg hi0, hrm (jx - 1), if_pos (by omega),
                      List.getElem?_eq_getElem him1]
                · have hjgt : i < jx := by omega
                  have hj1lt : jx + 1 < ptrs.length := by omega
                  have hv : (ptrs.take i ++ ptrs.drop (i + 1))[jx] = ptrs[jx + 1] := by
                    have h1 := hrm jx
                    rw [List.getElem?_eq_getElem hjx, if_neg (by omega),
                      List.getElem?_eq_getElem hj1lt] at h1
                    exact Option.some.inj h1
                  obtain ⟨nd, hnd, hnext, hprev⟩ :=
                    chainOk_find h ptrs R.chain (jx + 1) hj1lt
                  have hq0 : ptrs[jx + 1] ≠ ptrs[i] :=
                    nodup_getElem_ne ptrs R.nodup (jx + 1) i hj1lt hilt (by omega)
                  have hq1 : ptrs[jx + 1] ≠ ptrs[i - 1] :=
                    nodup_getElem_ne ptrs R.nodup (jx + 1) (i - 1) hj1lt him1 (by omega)
                  have hq2 : ptrs[jx + 1] ≠ ptrs[i + 1] :=
                    nodup_getElem_ne ptrs R.nodup (jx + 1) (i + 1) hj1lt hip1 (by omega)
                  rw [hv, hFother _ hq0 hq1 hq2, hnd]
                  refine ⟨?_, ?_⟩
                  · simp only [Option.map_some']
                    rw [hnext, hrm (jx + 1), if_neg (by omega)]
                  · simp only [Option.map_some']
                    rw [hprev, if_neg (by omega : ¬(jx + 1 = 0)),
                      if_neg (by omega : ¬(jx = 0)), hrm (jx - 1), if_neg (by omega),
                      show jx - 1 + 1 = jx by omega]
                    rfl
          · show s.head = _
            rw [R.headEq, hrm 0, if_pos (by omega)]
          · show s.tail = _
            rw [R.tailEq, show (ptrs.take i ++ ptrs.drop (i + 1)).length - 1 =
              ptrs.length - 2 by omega, hrm (ptrs.length - 2), if_neg (by omega),
              show ptrs.length - 2 + 1 = ptrs.length - 1 by omega]
          · show s.len - 1 = _
            rw [hlen', R.lenEq]
          · exact R.nodup.sublist hsub
          · intro q hq
            show q < h.top
            exact R.fresh q (hsub.subset hq)
        · rw [absList_append, absList_eq_of_data h _ _
            (fun q hq => hdata q (List.mem_append_left _ hq)),
            absList_eq_of_data h _ _
            (fun q hq => hdata q (List.mem_append_right _ hq))]
          unfold absList
          rw [List.map_take, List.map_drop]

/-! ## `llist_clear` -/

theorem chainOk_next (h : Heap) (ptrs : List Nat) (hc : chainOk h ptrs) :
    nextChainOk h ptrs :=
  fun j hj => (hc j hj).1

theorem nextChainOk_tail (h : Heap) (p : Nat) (rest : List Nat)
    (hc : nextChainOk h (p :: rest)) (hp : p ∉ rest) :
    nextChainOk (h.erase p) rest := by
  intro j hj
  have hj1 : j + 1 < (p :: rest).length := by simp; omega
  have hcons := hc (j + 1) hj1
  have hval : (p :: rest)[j + 1] = rest[j] := rfl
  rw [hval] at hcons
  have h1 : (p :: rest)[j + 1 + 1]? = rest[j + 1]? := List.getElem?_cons_succ
  rw [h1] at hcons
  rw [find_erase_ne _ _ _ (fun he => hp (by rw [← he]; exact rest.getElem_mem hj))]
  exact hcons

theorem clearLoop_ok (ptrs : List Nat) :
    ∀ (h : Heap), nextChainOk h ptrs → ptrs.Nodup → ∀ fuel, ptrs.length < fuel →
      ∃ h2, clearLoop h ptrs[0]? fuel = some h2 ∧ h2.top = h.top := by
  induction ptrs with
  | nil =>
    intro h _ _ fuel _
    refine ⟨h, ?_, rfl⟩
    simp [clearLoop]
  | cons p rest ih =>
    intro h hc hnodup fuel hfuel
    match fuel, hfuel with
    | f + 1, hfuel =>
      have h0 : (p :: rest).length > 0 := by simp
      have hfind := hc 0 h0
      obtain ⟨nd, hfnd, hnext⟩ := Option.map_eq_some'.mp hfind
      have hnext2 : nd.next = rest[0]? := by
        rw [hnext]
        exact List.getElem?_cons_succ
      have hv0 : (p :: rest)[0]? = some p := List.getElem?_cons_zero
      have hfndp : h.find p = some nd := hfnd
      have hstep : clearLoop h (p :: rest)[0]? (f + 1) =
          clearLoop (h.erase p) rest[0]? f := by
        rw [hv0]
        simp [clearLoop, hfndp, hnext2]
      obtain ⟨h2, hh2, htop⟩ := ih (h.erase p)
        (nextChainOk_tail h p rest hc (List.nodup_cons.mp hnodup).1)
        (List.nodup_cons.mp hnodup).2 f (by simp at hfuel ⊢; omega)
      exact ⟨h2, hstep ▸ hh2, htop⟩

/-- Any heap represents the freshly initialised (empty) list. -/
theorem listRep_empty (h : Heap) : ListRep h ⟨none, none, 0⟩ [] := by
  refine ⟨chainOk_nil h, rfl, rfl, rfl, List.nodup_nil, ?_⟩
  intro p hp
  simp at hp

/-- A list header with `len = 0` satisfying the representation is exactly the
initialised header. -/
theorem listRep_len_zero (h : Heap) (s : llist_t) (R : ListRep h s []) :
    s = ⟨none, none, 0⟩ := by
  obtain ⟨head, tail, len⟩ := s
  have h1 := R.headEq
  have h2 := R.tailEq
  have h3 := R.lenEq
  simp at h1 h2 h3
  simp [h1, h2, h3]

/-- `llist_get` at any index of the initialised header is `none`. -/
theorem llist_get_empty (h : Heap) (i : Nat) :
    llist_get h (some ⟨none, none, 0⟩) i = none := rfl

/-- Successful `llist_clear` frees the whole chain and resets the header. -/
theorem llist_clear_ok (h : Heap) (s : llist_t) (ptrs : List Nat)
    (R : ListRep h s ptrs) :
    ∃ h2, llist_clear h (some s) = some (h2, some ⟨none, none, 0⟩) ∧
      h2.top = h.top ∧ ListRep h2 (⟨none, none, 0⟩ : llist_t) [] := by
  by_cases hlen : s.len = 0
  · have hptrs : ptrs = [] := List.eq_nil_of_length_eq_zero (by rw [← R.lenEq]; exact hlen)
    subst hptrs
    have hs : s = ⟨none, none, 0⟩ := listRep_len_zero h s R
    subst hs
    exact ⟨h, rfl, rfl, listRep_empty h⟩
  · obtain ⟨h2, hloop, htop⟩ := clearLoop_ok ptrs h (chainOk_next h ptrs R.chain)
      R.nodup (s.len + 1) (by rw [R.lenEq]; omega)
    refine ⟨h2, ?_, htop, listRep_empty h2⟩
    show (if s.len = 0 then some (h, some s)
      else
        match clearLoop h s.head (s.len + 1) with
        | none => none
        | some h3 => some (h3, some { s with head := none, tail := none, len := 0 })) = _
    rw [if_neg hlen, R.headEq, hloop]

/-- A run of valid `llist_add` calls succeeds and appends the copied payloads
in order. -/
theorem runAdds_ok (inputs : List (List Byte × Nat)) :
    ∀ (h : Heap) (s : llist_t) (ptrs : List Nat), ListRep h s ptrs →
      (∀ x ∈ inputs, x.2 ≠ 0) →
      ∃ h2 s2 ptrs2, runAdds h (some s) inputs = some (h2, some s2) ∧
        ListRep h2 s2 ptrs2 ∧
        absList h2 ptrs2 = absList h ptrs ++ inputs.map (fun x => x.1.take x.2) := by
  induction inputs with
  | nil =>
    intro h s ptrs R _
    exact ⟨h, s, ptrs, rfl, R, by simp⟩
  | cons x rest ih =>
    intro h s ptrs R hval
    obtain ⟨h2, s2, hadd, R2, habs2, _⟩ :=
      llist_add_ok h s ptrs x.1 x.2 R (hval x (List.mem_cons_self x rest))
    obtain ⟨h3, s3, ptrs3, hrun, R3, habs3⟩ := ih h2 s2 (ptrs ++ [h.top]) R2
      (fun y hy => hval y (List.mem_cons_of_mem x hy))
    refine ⟨h3, s3, ptrs3, ?_, R3, ?_⟩
    · show (match llist_add h (some s) (some x.1) x.2 true true with
        | none => none
        | some (_, h2, l2) => runAdds h2 l2 rest) = _
      rw [hadd]
      exact hrun
    · rw [habs3, habs2, List.map_cons, List.append_assoc]
      rfl

/-! ## Helper lemmas shared by the claim theorems -/

/-- On an empty list or an at/past-the-end index, `llist_ins` literally runs
`llist_add` (the source comment: let `llist_add` handle out of range). -/
theorem llist_ins_degrade_eq (h : Heap) (l : Option llist_t) (d : Option (List Byte))
    (n i : Nat) (ok1 ok2 : Bool)
    (hcond : l = none ∨ ∃ s, l = some s ∧ (s.len = 0 ∨ i ≥ s.len)) :
    llist_ins h l d n i ok1 ok2 = llist_add h l d n ok1 ok2 := by
  rcases hcond with rfl | ⟨s, rfl, hdeg⟩
  · rfl
  · cases d with
    | none => rfl
    | some dd =>
      by_cases hn : n = 0
      · simp [llist_ins, llist_add, hn]
      · show (if n = 0 then some (LLIST_NULL_ERR, h, some s)
          else if s.len = 0 ∨ i ≥ s.len then llist_add h (some s) (some dd) n ok1 ok2
          else _) = _
        rw [if_neg hn, if_pos hdeg]

/-- `llist_add` always returns a state satisfying the invariant. -/
theorem llist_add_preserves (h : Heap) (s : llist_t) (ptrs : List Nat)
    (d : Option (List Byte)) (n : Nat) (ok1 ok2 : Bool) (R : ListRep h s ptrs) :
    ∃ st h2 s2 ptrs2, llist_add h (some s) d n ok1 ok2 = some (st, h2, some s2) ∧
      ListRep h2 s2 ptrs2 := by
  cases d with
  | none => exact ⟨LLIST_NULL_ERR, h, s, ptrs, rfl, R⟩
  | some dd =>
    by_cases hn : n = 0
    · refine ⟨LLIST_NULL_ERR, h, s, ptrs, ?_, R⟩
      simp [llist_add, hn]
    · by_cases hok : ok1 = true ∧ ok2 = true
      · obtain ⟨rfl, rfl⟩ := hok
        obtain ⟨h2, s2, hadd, R2, _⟩ := llist_add_ok h s ptrs dd n R hn
        exact ⟨LLIST_OK, h2, s2, ptrs ++ [h.top], hadd, R2⟩
      · exact ⟨LLIST_ALLOC_ERR, h, s, ptrs,
          llist_add_alloc_err h s dd n ok1 ok2 hn hok, R⟩

/-- `llist_ins` always returns a state satisfying the invariant. -/
theorem llist_ins_preserves (h : Heap) (s : llist_t) (ptrs : List Nat)
    (d : Option (List Byte)) (n i : Nat) (ok1 ok2 : Bool) (R : ListRep h s ptrs) :
    ∃ st h2 s2 ptrs2, llist_ins h (some s) d n i ok1 ok2 = some (st, h2, some s2) ∧
      ListRep h2 s2 ptrs2 := by
  by_cases hdeg : s.len = 0 ∨ i ≥ s.len
  · rw [llist_ins_degrade_eq h (some s) d n i ok1 ok2 (Or.inr ⟨s, rfl, hdeg⟩)]
    exact llist_add_preserves h s ptrs d n ok1 ok2 R
  · push_neg at hdeg
    obtain ⟨hlen0, hilen⟩ := hdeg
    have hilen2 : i < ptrs.length := by rw [← R.lenEq]; omega
    have hne : ptrs ≠ [] := by
      intro hz
      rw [hz] at hilen2
      simp at hilen2
    cases d with
    | none => exact ⟨LLIST_NULL_ERR, h, s, ptrs, rfl, R⟩
    | some dd =>
      by_cases hn : n = 0
      · refine ⟨LLIST_NULL_ERR, h, s, ptrs, ?_, R⟩
        simp [llist_ins, hn]
      · by_cases hok : ok1 = true ∧ ok2 = true
        · obtain ⟨rfl, rfl⟩ := hok
          by_cases hi0 : i = 0
          · subst hi0
            obtain ⟨h2, s2, hins, R2, _⟩ := llist_ins_head_ok h s ptrs dd n R hn hne
            exact ⟨LLIST_OK, h2, s2, h.top :: ptrs, hins, R2⟩
          · obtain ⟨h2, s2, hins, R2, _⟩ :=
              llist_ins_mid_ok h s ptrs dd n i R hn hi0 hilen2
            exact ⟨LLIST_OK, h2, s2, _, hins, R2⟩
        · exact ⟨LLIST_ALLOC_ERR, h, s, ptrs,
            llist_ins_alloc_err h s dd n i ok1 ok2 hn hok, R⟩

/-- `llist_del` always returns a state satisfying the invariant. -/
theorem llist_del_preserves (h : Heap) (s : llist_t) (ptrs : List Nat) (i : Nat)
    (R : ListRep h s ptrs) :
    ∃ ret h2 s2 ptrs2, llist_del h (some s) i = some (ret, h2, some s2) ∧
      ListRep h2 s2 ptrs2 := by
  by_cases hne : ptrs = []
  · subst hne
    have hlen : s.len = 0 := by rw [R.lenEq]; rfl
    exact ⟨none, h, s, [], llist_del_empty h s i hlen, R⟩
  · obtain ⟨h2, s2, hdel, R2, _⟩ := llist_del_ok h s ptrs i R hne
    exact ⟨_, h2, s2, _, hdel, R2⟩

/-! ## Claim theorems -/

/-- C1: for every sequence of successful `llist_add` calls on an initialised
list and every index `i < count`, `llist_get i` returns exactly the bytes
supplied to the i-th add — the payloads are stored as owned copies in
insertion order, head to tail. -/
theorem add_get_roundtrip (h : Heap) (inputs : List (List Byte × Nat))
    (hval : ∀ x ∈ inputs, x.2 = x.1.length ∧ x.2 ≠ 0) :
    ∃ h2 s2, runAdds h (some ⟨none, none, 0⟩) inputs = some (h2, some s2) ∧
      s2.len = inputs.length ∧
      ∀ i, (hi : i < inputs.length) →
        llist_get h2 (some s2) i = some inputs[i].1 := by
  obtain ⟨h2, s2, ptrs2, hrun, R2, habs⟩ :=
    runAdds_ok inputs h ⟨none, none, 0⟩ [] (listRep_empty h)
      (fun x hx => (hval x hx).2)
  have hlen : ptrs2.length = inputs.length := by
    have h1 : (absList h2 ptrs2).length = inputs.length := by
      rw [habs]
      simp [absList]
    rw [absList_length] at h1
    exact h1
  refine ⟨h2, s2, hrun, by rw [R2.lenEq, hlen], ?_⟩
  intro i hi
  have hne : ptrs2 ≠ [] := by
    intro hz
    rw [hz] at hlen
    simp at hlen
    omega
  have hilt : i < ptrs2.length := by omega
  have hclamp : clampIdx ptrs2.length i = i := by
    unfold clampIdx
    rw [if_neg (by omega)]
  rw [llist_get_spec h2 s2 ptrs2 i R2 hne, hclamp, habs]
  have hmap : (absList h [] ++ inputs.map (fun x => x.1.take x.2))[i]? =
      some (inputs[i].1.take inputs[i].2) := by
    show ((inputs.map fun x => x.1.take x.2))[i]? = _
    rw [List.getElem?_map, List.getElem?_eq_getElem hi]
    rfl
  rw [hmap, (hval inputs[i] (List.getElem_mem hi)).1, List.take_length]

theorem add_get_roundtrip_witness :
    (∀ x ∈ [([3, 4], 2), ([5], 1)], x.2 = x.1.length ∧ x.2 ≠ 0) ∧
    ∃ h2 s2, runAdds ⟨[], 0⟩ (some ⟨none, none, 0⟩) [([3, 4], 2), ([5], 1)] =
        some (h2, some s2) ∧
      s2.len = [([3, 4], 2), ([5], 1)].length ∧
      ∀ i, (hi : i < ([([3, 4], 2), ([5], 1)] : List (List Byte × Nat)).length) →
        llist_get h2 (some s2) i = some [([3, 4], 2), ([5], 1)][i].1 :=
  ⟨by decide, add_get_roundtrip ⟨[], 0⟩ [([3, 4], 2), ([5], 1)] (by decide)⟩

/-- C2: on a non-empty list, any index `i ≥ count` is clamped to `count - 1`:
`llist_get` returns the tail's payload and `llist_del` detaches and returns
the former tail, decrementing `len` by exactly one; neither reports an
error. -/
theorem clamp_get_del (h : Heap) (s : llist_t) (ptrs : List Nat) (i : Nat)
    (R : ListRep h s ptrs) (hne : ptrs ≠ []) (hi : i ≥ s.len) :
    llist_get h (some s) i = some ((absList h ptrs).getD (ptrs.length - 1) []) ∧
    ∃ h2 s2, llist_del h (some s) i =
      some (some ((absList h ptrs).getD (ptrs.length - 1) []), h2, some s2) ∧
      s2.len = s.len - 1 ∧
      ListRep h2 s2 (ptrs.take (ptrs.length - 1) ++ ptrs.drop (ptrs.length - 1 + 1)) := by
  have hlen : ptrs.length ≠ 0 := fun hz => hne (List.eq_nil_of_length_eq_zero hz)
  have hslen : s.len = ptrs.length := R.lenEq
  have hjv : clampIdx ptrs.length i = ptrs.length - 1 := by
    unfold clampIdx
    split <;> omega
  have hm1 : ptrs.length - 1 < (absList h ptrs).length := by
    rw [absList_length]
    omega
  have habs : (absList h ptrs)[ptrs.length - 1]? =
      some ((absList h ptrs).getD (ptrs.length - 1) []) := by
    rw [List.getD_eq_getElem?_getD, List.getElem?_eq_getElem hm1]
    rfl
  constructor
  · rw [llist_get_spec h s ptrs i R hne, hjv, habs]
  · obtain ⟨h2, s2, hdel, R2, _, hlen2, _⟩ := llist_del_ok h s ptrs i R hne
    rw [hjv] at hdel R2
    refine ⟨h2, s2, ?_, hlen2, R2⟩
    rw [hdel]

theorem clamp_get_del_witness :
    ListRep ⟨[(0, ⟨[7], none, some 1⟩), (1, ⟨[9], some 0, none⟩)], 2⟩
      ⟨some 0, some 1, 2⟩ [0, 1] ∧
    ([0, 1] : List Nat) ≠ [] ∧ (5 : Nat) ≥ (⟨some 0, some 1, 2⟩ : llist_t).len ∧
    (llist_get ⟨[(0, ⟨[7], none, some 1⟩), (1, ⟨[9], some 0, none⟩)], 2⟩
        (some ⟨some 0, some 1, 2⟩) 5 =
      some ((absList ⟨[(0, ⟨[7], none, some 1⟩), (1, ⟨[9], some 0, none⟩)], 2⟩
        [0, 1]).getD (([0, 1] : List Nat).length - 1) []) ∧
    ∃ h2 s2, llist_del ⟨[(0, ⟨[7], none, some 1⟩), (1, ⟨[9], some 0, none⟩)], 2⟩
        (some ⟨some 0, some 1, 2⟩) 5 =
      some (some ((absList ⟨[(0, ⟨[7], none, some 1⟩), (1, ⟨[9], some 0, none⟩)], 2⟩
        [0, 1]).getD (([0, 1] : List Nat).length - 1) []), h2, some s2) ∧
      s2.len = (⟨some 0, some 1, 2⟩ : llist_t).len - 1 ∧
      ListRep h2 s2 (([0, 1] : List Nat).take (([0, 1] : List Nat).length - 1) ++
        ([0, 1] : List Nat).drop (([0, 1] : List Nat).length - 1 + 1))) :=
  ⟨by decide, by decide, by decide,
    clamp_get_del ⟨[(0, ⟨[7], none, some 1⟩), (1, ⟨[9], some 0, none⟩)], 2⟩
      ⟨some 0, some 1, 2⟩ [0, 1] 5 (by decide) (by decide) (by decide)⟩

/-- C3: whenever the list is empty or the index is at/past the end,
`llist_ins` behaves identically to `llist_add` — the same return value in
every respect — and on a successful (status `LLIST_OK`) call the new node
becomes the tail. -/
theorem ins_out_of_range_eq_add (h : Heap) (l : Option llist_t)
    (d : Option (List Byte)) (n i : Nat) (ok1 ok2 : Bool)
    (hcond : l = none ∨ ∃ s, l = some s ∧ (s.len = 0 ∨ i ≥ s.len)) :
    llist_ins h l d n i ok1 ok2 = llist_add h l d n ok1 ok2 ∧
    (∀ s ptrs st h2 s2, l = some s → ListRep h s ptrs →
      llist_ins h l d n i ok1 ok2 = some (st, h2, some s2) → st = LLIST_OK →
      s2.tail = some h.top) := by
  have heq := llist_ins_degrade_eq h l d n i ok1 ok2 hcond
  refine ⟨heq, ?_⟩
  intro s ptrs st h2 s2 hl R hins hstat
  subst hl
  subst hstat
  rw [heq] at hins
  cases d with
  | none =>
    have hc : llist_add h (some s) none n ok1 ok2 =
        some (LLIST_NULL_ERR, h, some s) := rfl
    rw [hc] at hins
    simp [LLIST_NULL_ERR, LLIST_OK] at hins
  | some dd =>
    by_cases hn : n = 0
    · have hc : llist_add h (some s) (some dd) n ok1 ok2 =
          some (LLIST_NULL_ERR, h, some s) := by
        simp [llist_add, hn]
      rw [hc] at hins
      simp [LLIST_NULL_ERR, LLIST_OK] at hins
    · by_cases hok : ok1 = true ∧ ok2 = true
      · obtain ⟨rfl, rfl⟩ := hok
        obtain ⟨h2', s2', hadd, _, _, _, htail, _, _⟩ := llist_add_ok h s ptrs dd n R hn
        rw [hadd] at hins
        simp only [Option.some.injEq, Prod.mk.injEq] at hins
        obtain ⟨-, -, hs2⟩ := hins
        rw [← hs2]
        exact htail
      · rw [llist_add_alloc_err h s dd n ok1 ok2 hn hok] at hins
        simp [LLIST_ALLOC_ERR, LLIST_OK] at hins

theorem ins_out_of_range_eq_add_witness :
    ((some (⟨some 0, some 0, 1⟩ : llist_t) = none ∨
      ∃ s, some (⟨some 0, some 0, 1⟩ : llist_t) = some s ∧ (s.len = 0 ∨ 7 ≥ s.len))) ∧
    (llist_ins ⟨[(0, ⟨[4], none, none⟩)], 1⟩ (some ⟨some 0, some 0, 1⟩) (some [8]) 1 7
        true true =
      llist_add ⟨[(0, ⟨[4], none, none⟩)], 1⟩ (some ⟨some 0, some 0, 1⟩) (some [8]) 1
        true true) ∧
    (∀ s ptrs st h2 s2, some (⟨some 0, some 0, 1⟩ : llist_t) = some s →
      ListRep ⟨[(0, ⟨[4], none, none⟩)], 1⟩ s ptrs →
      llist_ins ⟨[(0, ⟨[4], none, none⟩)], 1⟩ (some ⟨some 0, some 0, 1⟩) (some [8]) 1 7
        true true = some (st, h2, some s2) → st = LLIST_OK →
      s2.tail = some (⟨[(0, ⟨[4], none, none⟩)], 1⟩ : Heap).top) := by
  have h1 := ins_out_of_range_eq_add ⟨[(0, ⟨[4], none, none⟩)], 1⟩
    (some ⟨some 0, some 0, 1⟩) (some [8]) 1 7 true true
    (Or.inr ⟨⟨some 0, some 0, 1⟩, rfl, by decide⟩)
  exact ⟨Or.inr ⟨⟨some 0, some 0, 1⟩, rfl, by decide⟩, h1.1, h1.2⟩

/-- C4: every public operation yields a state satisfying the structural
invariant `ListRep`: `len = 0` iff `head = none` iff `tail = none` (from
`headEq`/`tailEq`/`lenEq`), `len` counts exactly the nodes reachable from
`head` along `next` (`chainOk` + `lenEq`), the chain is duplicate-free —
hence acyclic — and bidirectionally consistent (each node's `prev`/`next`
point at its chain neighbours).  `llist_init` establishes the invariant;
`llist_get` takes the state read-only (by its type it returns no state, so
it preserves every invariant); `llist_add`, `llist_ins`, `llist_del` and
`llist_clear` each return, on every path, a state representing some chain. -/
theorem ops_preserve_invariant (h : Heap) (s : llist_t) (ptrs : List Nat)
    (R : ListRep h s ptrs) :
    ((llist_init (some s)).1 = LLIST_OK ∧
      (llist_init (some s)).2 = some ⟨none, none, 0⟩ ∧
      ListRep h ⟨none, none, 0⟩ []) ∧
    (∀ d n ok1 ok2, ∃ st h2 s2 ptrs2,
      llist_add h (some s) d n ok1 ok2 = some (st, h2, some s2) ∧
      ListRep h2 s2 ptrs2) ∧
    (∀ d n i ok1 ok2, ∃ st h2 s2 ptrs2,
      llist_ins h (some s) d n i ok1 ok2 = some (st, h2, some s2) ∧
      ListRep h2 s2 ptrs2) ∧
    (∀ i, ∃ ret h2 s2 ptrs2,
      llist_del h (some s) i = some (ret, h2, some s2) ∧ ListRep h2 s2 ptrs2) ∧
    (∃ h2 s2 ptrs2, llist_clear h (some s) = some (h2, some s2) ∧
      ListRep h2 s2 ptrs2) := by
  refine ⟨⟨rfl, rfl, listRep_empty h⟩,
    fun d n ok1 ok2 => llist_add_preserves h s ptrs d n ok1 ok2 R,
    fun d n i ok1 ok2 => llist_ins_preserves h s ptrs d n i ok1 ok2 R,
    fun i => llist_del_preserves h s ptrs i R, ?_⟩
  obtain ⟨h2, hc, _, R2⟩ := llist_clear_ok h s ptrs R
  exact ⟨h2, _, [], hc, R2⟩

theorem ops_preserve_invariant_witness :
    ListRep wheap1 wlist1 [0] ∧
    (((llist_init (some wlist1)).1 = LLIST_OK ∧
      (llist_init (some wlist1)).2 = some ⟨none, none, 0⟩ ∧
      ListRep wheap1 ⟨none, none, 0⟩ []) ∧
    (∀ d n ok1 ok2, ∃ st h2 s2 ptrs2,
      llist_add wheap1 (some wlist1) d n ok1 ok2 = some (st, h2, some s2) ∧
      ListRep h2 s2 ptrs2) ∧
    (∀ d n i ok1 ok2, ∃ st h2 s2 ptrs2,
      llist_ins wheap1 (some wlist1) d n i ok1 ok2 = some (st, h2, some s2) ∧
      ListRep h2 s2 ptrs2) ∧
    (∀ i, ∃ ret h2 s2 ptrs2,
      llist_del wheap1 (some wlist1) i = some (ret, h2, some s2) ∧
      ListRep h2 s2 ptrs2) ∧
    (∃ h2 s2 ptrs2, llist_clear wheap1 (some wlist1) = some (h2, some s2) ∧
      ListRep h2 s2 ptrs2)) :=
  ⟨by decide, ops_preserve_invariant wheap1 wlist1 [0] (by decide)⟩

/-- C5: a successful `llist_ins` at index 0 on a non-empty list makes the new
element the one returned by `llist_get 0`, and the element previously at the
head the one returned by `llist_get 1`. -/
theorem ins_head_get0_get1 (h : Heap) (s : llist_t) (ptrs : List Nat)
    (d : List Byte) (n : Nat) (R : ListRep h s ptrs) (hne : ptrs ≠ [])
    (hn : n ≠ 0) :
    ∃ h2 s2, llist_ins h (some s) (some d) n 0 true true =
        some (LLIST_OK, h2, some s2) ∧
      llist_get h2 (some s2) 0 = some (d.take n) ∧
      llist_get h2 (some s2) 1 = llist_get h (some s) 0 := by
  have hlen : ptrs.length ≠ 0 := fun hz => hne (List.eq_nil_of_length_eq_zero hz)
  obtain ⟨h2, s2, hins, R2, habs, _, _, _, _⟩ := llist_ins_head_ok h s ptrs d n R hn hne
  have hne2 : (h.top :: ptrs) ≠ [] := by simp
  refine ⟨h2, s2, hins, ?_, ?_⟩
  · rw [llist_get_spec h2 s2 _ 0 R2 hne2]
    have hc : clampIdx (h.top :: ptrs).length 0 = 0 := by
      unfold clampIdx
      rw [if_neg (by simp)]
    rw [hc, habs]
    exact List.getElem?_cons_zero
  · rw [llist_get_spec h2 s2 _ 1 R2 hne2]
    have hc : clampIdx (h.top :: ptrs).length 1 = 1 := by
      unfold clampIdx
      rw [if_neg (by simp only [List.length_cons]; omega)]
    rw [hc, habs]
    have h1 : (d.take n :: absList h ptrs)[0 + 1]? = (absList h ptrs)[0]? :=
      List.getElem?_cons_succ
    rw [h1, llist_get_spec h s ptrs 0 R hne]
    have hc0 : clampIdx ptrs.length 0 = 0 := by
      unfold clampIdx
      rw [if_neg (by omega)]
    rw [hc0]

theorem ins_head_get0_get1_witness :
    ListRep wheap1 wlist1 [0] ∧ ([0] : List Nat) ≠ [] ∧ (1 : Nat) ≠ 0 ∧
    ∃ h2 s2, llist_ins wheap1 (some wlist1) (some [5]) 1 0 true true =
        some (LLIST_OK, h2, some s2) ∧
      llist_get h2 (some s2) 0 = some (([5] : List Byte).take 1) ∧
      llist_get h2 (some s2) 1 = llist_get wheap1 (some wlist1) 0 :=
  ⟨by decide, by decide, by decide,
    ins_head_get0_get1 wheap1 wlist1 [0] [5] 1 (by decide) (by decide) (by decide)⟩

/-- C6: on a well-formed list, the bidirectional resolver `lnode_get` —
which walks backward from the tail exactly when the clamped index lies in
the second half (`i ≥ len / 2`) and forward from the head otherwise — is
extensionally equal to the naive forward walk, and both select the node at
the clamped position from the head. -/
theorem lnode_get_eq_forward_walk (h : Heap) (s : llist_t) (ptrs : List Nat)
    (i : Nat) (R : ListRep h s ptrs) :
    lnode_get h (some s) i = lnode_get_fwd h (some s) i ∧
    (ptrs ≠ [] → lnode_get h (some s) i = ptrs[clampIdx ptrs.length i]?) := by
  by_cases hne : ptrs = []
  · subst hne
    have hlen0 : s.len = 0 := by rw [R.lenEq]; rfl
    constructor
    · show (if s.len = 0 then none else _) = (if s.len = 0 then none else _)
      rw [if_pos hlen0, if_pos hlen0]
    · intro hcon
      exact absurd rfl hcon
  · have hlen : ptrs.length ≠ 0 := fun hz => hne (List.eq_nil_of_length_eq_zero hz)
    have hcl : clampIdx ptrs.length i < ptrs.length := clampIdx_lt _ _ hlen
    have hfwd : lnode_get_fwd h (some s) i = ptrs[clampIdx ptrs.length i]? := by
      show (if s.len = 0 then none
        else walkNext h s.head (if i ≥ s.len then s.len - 1 else i)) = _
      rw [R.lenEq, if_neg hlen, R.headEq]
      show walkNext h ptrs[0]? (clampIdx ptrs.length i) = _
      rw [walkNext_spec h ptrs R.chain (clampIdx ptrs.length i) 0 (by omega)]
      congr 1
      omega
    refine ⟨?_, fun _ => lnode_get_spec h s ptrs i R hne⟩
    rw [lnode_get_spec h s ptrs i R hne, hfwd]

theorem lnode_get_eq_forward_walk_witness :
    ListRep wheap1 wlist1 [0] ∧
    (lnode_get wheap1 (some wlist1) 3 = lnode_get_fwd wheap1 (some wlist1) 3 ∧
    (([0] : List Nat) ≠ [] →
      lnode_get wheap1 (some wlist1) 3 = ([0] : List Nat)[clampIdx ([0] : List Nat).length 3]?)) :=
  ⟨by decide, lnode_get_eq_forward_walk wheap1 wlist1 [0] 3 (by decide)⟩

/-- C7: `llist_add` and `llist_ins` report `LLIST_NULL_ERR` exactly when the
list handle or data pointer is absent or the length is `0`, detected before
any mutation (heap and handle come back untouched); and when either
allocation fails they report `LLIST_ALLOC_ERR` with every partially acquired
resource released — the returned heap is exactly the prior heap — and the
list in its prior state (no partial node linked in, `len` unchanged). -/
theorem null_and_alloc_errors (h : Heap) (l : Option llist_t)
    (d : Option (List Byte)) (n i : Nat) (ok1 ok2 : Bool) :
    (llist_add h l d n ok1 ok2 = some (LLIST_NULL_ERR, h, l) ↔
      (l = none ∨ d = none ∨ n = 0)) ∧
    (llist_ins h l d n i ok1 ok2 = some (LLIST_NULL_ERR, h, l) ↔
      (l = none ∨ d = none ∨ n = 0)) ∧
    (∀ s dd, l = some s → d = some dd → n ≠ 0 → ¬(ok1 = true ∧ ok2 = true) →
      llist_add h l d n ok1 ok2 = some (LLIST_ALLOC_ERR, h, some s) ∧
      llist_ins h l d n i ok1 ok2 = some (LLIST_ALLOC_ERR, h, some s)) := by
  refine ⟨llist_add_null_iff h l d n ok1 ok2, llist_ins_null_iff h l d n i ok1 ok2, ?_⟩
  intro s dd hl hd hn hok
  subst hl
  subst hd
  exact ⟨llist_add_alloc_err h s dd n ok1 ok2 hn hok,
    llist_ins_alloc_err h s dd n i ok1 ok2 hn hok⟩

theorem null_and_alloc_errors_witness :
    ((llist_add wheap1 (some wlist1) (some [2]) 0 false true =
        some (LLIST_NULL_ERR, wheap1, some wlist1) ↔
      ((some wlist1 : Option llist_t) = none ∨
        (some [2] : Option (List Byte)) = none ∨ (0 : Nat) = 0)) ∧
    (llist_ins wheap1 (some wlist1) (some [2]) 0 0 false true =
        some (LLIST_NULL_ERR, wheap1, some wlist1) ↔
      ((some wlist1 : Option llist_t) = none ∨
        (some [2] : Option (List Byte)) = none ∨ (0 : Nat) = 0))) ∧
    (llist_add wheap1 (some wlist1) (some [2]) 1 false true =
      some (LLIST_ALLOC_ERR, wheap1, some wlist1)) ∧
    (llist_ins wheap1 (some wlist1) (some [2]) 1 0 false true =
      some (LLIST_ALLOC_ERR, wheap1, some wlist1)) := by
  have h1 := null_and_alloc_errors wheap1 (some wlist1) (some [2]) 0 0 false true
  have h2 := null_and_alloc_errors wheap1 (some wlist1) (some [2]) 1 0 false true
  have h3 := h2.2.2 wlist1 [2] rfl rfl (by decide) (by decide)
  exact ⟨⟨h1.1, h1.2.1⟩, h3.1, h3.2⟩

/-- C8: after `llist_clear` on any represented list the header is the empty
one (`len = 0`) and a subsequent `llist_get 0` returns `none`; running
`llist_clear` again returns the very same state (idempotence), and
`llist_clear` on an absent or already-empty list is a no-op. -/
theorem clear_resets_and_idempotent (h : Heap) (l : Option llist_t) :
    (l = none → llist_clear h l = some (h, l)) ∧
    (∀ s, l = some s → s.len = 0 → llist_clear h l = some (h, l)) ∧
    (∀ s ptrs, l = some s → ListRep h s ptrs →
      ∃ h2, llist_clear h l = some (h2, some ⟨none, none, 0⟩) ∧
        llist_get h2 (some ⟨none, none, 0⟩) 0 = none ∧
        llist_clear h2 (some ⟨none, none, 0⟩) = some (h2, some ⟨none, none, 0⟩)) := by
  refine ⟨?_, ?_, ?_⟩
  · rintro rfl
    rfl
  · rintro s rfl hlen
    show (if s.len = 0 then some (h, some s)
      else
        match clearLoop h s.head (s.len + 1) with
        | none => none
        | some h2 => some (h2, some { s with head := none, tail := none, len := 0 })) = _
    rw [if_pos hlen]
  · rintro s ptrs rfl R
    obtain ⟨h2, hc, _, _⟩ := llist_clear_ok h s ptrs R
    exact ⟨h2, hc, llist_get_empty h2 0, rfl⟩

theorem clear_resets_and_idempotent_witness :
    ((some wlist2 : Option llist_t) = none →
      llist_clear wheap2 (some wlist2) = some (wheap2, some wlist2)) ∧
    (∀ s, (some wlist2 : Option llist_t) = some s → s.len = 0 →
      llist_clear wheap2 (some wlist2) = some (wheap2, some wlist2)) ∧
    (∀ s ptrs, (some wlist2 : Option llist_t) = some s → ListRep wheap2 s ptrs →
      ∃ h2, llist_clear wheap2 (some wlist2) = some (h2, some ⟨none, none, 0⟩) ∧
        llist_get h2 (some ⟨none, none, 0⟩) 0 = none ∧
        llist_clear h2 (some ⟨none, none, 0⟩) = some (h2, some ⟨none, none, 0⟩)) :=
  clear_resets_and_idempotent wheap2 (some wlist2)

/-- C9: in every state satisfying the invariant, `len = 1` holds exactly when
`head` and `tail` coincide on a present node; and in that case the single
node has both of its links `none`. -/
theorem len_one_iff_head_eq_tail (h : Heap) (s : llist_t) (ptrs : List Nat)
    (R : ListRep h s ptrs) :
    (s.len = 1 ↔ (s.head = s.tail ∧ s.head ≠ none)) ∧
    (s.len = 1 → ∃ p nd, s.head = some p ∧ s.tail = some p ∧
      h.find p = some nd ∧ nd.prev = none ∧ nd.next = none) := by
  constructor
  · constructor
    · intro h1
      have hplen : ptrs.length = 1 := by rw [← R.lenEq]; exact h1
      obtain ⟨p, rfl⟩ := List.length_eq_one.mp hplen
      refine ⟨?_, ?_⟩
      · rw [R.headEq, R.tailEq]
        rfl
      · rw [R.headEq]
        simp
    · intro hc
      obtain ⟨hht, hsome⟩ := hc
      by_contra hne1
      have hlen0 : ptrs.length ≠ 0 := by
        intro hz
        obtain rfl := List.eq_nil_of_length_eq_zero hz
        exact hsome (by rw [R.headEq]; rfl)
      have hlen2 : 2 ≤ ptrs.length := by
        have := R.lenEq
        omega
      have h0lt : 0 < ptrs.length := by omega
      have hm1 : ptrs.length - 1 < ptrs.length := by omega
      have heq2 : ptrs[0] = ptrs[ptrs.length - 1] := by
        have hh := R.headEq
        have ht := R.tailEq
        rw [List.getElem?_eq_getElem h0lt] at hh
        rw [List.getElem?_eq_getElem hm1] at ht
        rw [hh, ht] at hht
        exact Option.some.inj hht
      exact nodup_getElem_ne ptrs R.nodup 0 (ptrs.length - 1) h0lt hm1
        (by omega) heq2
  · intro h1
    have hplen : ptrs.length = 1 := by rw [← R.lenEq]; exact h1
    obtain ⟨p, rfl⟩ := List.length_eq_one.mp hplen
    obtain ⟨nd, hnd, hnext, hprev⟩ := chainOk_find h [p] R.chain 0 (by simp)
    refine ⟨p, nd, ?_, ?_, hnd, ?_, ?_⟩
    · rw [R.headEq]
      rfl
    · rw [R.tailEq]
      rfl
    · rw [hprev]
      rfl
    · rw [hnext]
      rfl

/-- C9 counterexample: on the state produced by `llist_init` — reachable,
invariant-satisfying — `head` and `tail` are equal (both `none`) yet
`len = 0`, so the bare biconditional `len = 1 ↔ head = tail` is false; the
equivalence needs the two pointers to hold an actual node. -/
theorem len_one_iff_head_eq_tail_cex :
    (llist_init (some wlist1)).2 = some ⟨none, none, 0⟩ ∧
    ListRep ⟨[], 0⟩ ⟨none, none, 0⟩ [] ∧
    ¬(((⟨none, none, 0⟩ : llist_t).len = 1) ↔
      ((⟨none, none, 0⟩ : llist_t).head = (⟨none, none, 0⟩ : llist_t).tail)) :=
  ⟨rfl, by decide, by decide⟩

theorem len_one_iff_head_eq_tail_witness :
    ListRep wheap1 wlist1 [0] ∧
    ((wlist1.len = 1 ↔ (wlist1.head = wlist1.tail ∧ wlist1.head ≠ none)) ∧
    (wlist1.len = 1 → ∃ p nd, wlist1.head = some p ∧ wlist1.tail = some p ∧
      wheap1.find p = some nd ∧ nd.prev = none ∧ nd.next = none)) :=
  ⟨by decide, len_one_iff_head_eq_tail wheap1 wlist1 [0] (by decide)⟩

/-- C10: in the mid-insertion branch of `llist_ins` (valid inputs,
`1 ≤ i < len`), after the successful allocation the predecessor lookup
`lnode_get (i - 1)` always yields a node and that node's `next` link is
always present, so the splice never follows an absent link: the whole
insertion computes a value, never reaching the embedded
undefined-behaviour (`none`) branches. -/
theorem ins_mid_lookup_safe (h : Heap) (s : llist_t) (ptrs : List Nat)
    (d : List Byte) (n i : Nat) (R : ListRep h s ptrs) (hn : n ≠ 0)
    (hi1 : 1 ≤ i) (hi2 : i < s.len) :
    (∃ bef befnd,
      lnode_get (⟨(h.top, ⟨d.take n, none, none⟩) :: h.mem, h.top + 1⟩ : Heap)
        (some s) (i - 1) = some bef ∧
      (⟨(h.top, ⟨d.take n, none, none⟩) :: h.mem, h.top + 1⟩ : Heap).find bef =
        some befnd ∧
      befnd.next.isSome = true) ∧
    (llist_ins h (some s) (some d) n i true true).isSome = true := by
  have hilen : i < ptrs.length := by rw [← R.lenEq]; exact hi2
  have hlen : ptrs.length ≠ 0 := by omega
  have hne : ptrs ≠ [] := fun hz => hlen (by rw [hz]; rfl)
  have hi1lt : i - 1 < ptrs.length := by omega
  have hR1 : ListRep (h.alloc ⟨d.take n, none, none⟩).2 s ptrs :=
    listRep_alloc h s ptrs _ R
  have hget1 : lnode_get (⟨(h.top, ⟨d.take n, none, none⟩) :: h.mem, h.top + 1⟩ : Heap)
      (some s) (i - 1) = some ptrs[i - 1] := by
    have hspec := lnode_get_spec _ s ptrs (i - 1) hR1 hne
    have hcl : clampIdx ptrs.length (i - 1) = i - 1 := by
      unfold clampIdx
      rw [if_neg (by omega)]
    rw [hcl, List.getElem?_eq_getElem hi1lt] at hspec
    exact hspec
  obtain ⟨befnd, hbef, hbnext, _⟩ := chainOk_find _ ptrs hR1.chain (i - 1) hi1lt
  refine ⟨⟨ptrs[i - 1], befnd, hget1, hbef, ?_⟩, ?_⟩
  · rw [hbnext, show i - 1 + 1 = i by omega, List.getElem?_eq_getElem hilen]
    rfl
  · obtain ⟨h2, s2, hins, _⟩ := llist_ins_mid_ok h s ptrs d n i R hn (by omega) hilen
    rw [hins]
    rfl

theorem ins_mid_lookup_safe_witness :
    ListRep wheap2 wlist2 [0, 1] ∧ (1 : Nat) ≠ 0 ∧ (1 : Nat) ≤ 1 ∧ 1 < wlist2.len ∧
    ((∃ bef befnd,
      lnode_get (⟨(wheap2.top, ⟨([9] : List Byte).take 1, none, none⟩) :: wheap2.mem,
        wheap2.top + 1⟩ : Heap) (some wlist2) (1 - 1) = some bef ∧
      (⟨(wheap2.top, ⟨([9] : List Byte).take 1, none, none⟩) :: wheap2.mem,
        wheap2.top + 1⟩ : Heap).find bef = some befnd ∧
      befnd.next.isSome = true) ∧
    (llist_ins wheap2 (some wlist2) (some [9]) 1 1 true true).isSome = true) :=
  ⟨by decide, by decide, by decide, by decide,
    ins_mid_lookup_safe wheap2 wlist2 [0, 1] [9] 1 1 (by decide) (by decide)
      (by decide) (by decide)⟩

end LinkedList
